import Mathlib

/-!
Verification development for the epub_translater repository.

The definitions below are shallow embeddings of the Python source:

* `paragraph_divider.py` (class `TextDivider`): `splitIntoSentences`,
  `detectParagraphs`, `mergeSentencesIntoParagraphs`, `splitLongSegment`,
  `optimizeSegments`, `groupIntoContentAwareBatches`.
* `translator.py` (class `DeepseekTranslator`): `translate_text`,
  `translate_batch`, `translateBatchTexts`.
* `epub_processor_translation.py`: `translatePreparedBatchCore` (the
  cache-and-translate core of `_translate_prepared_batch`), `planDispatch`
  (the dispatch loop of `translate_prepared_content`).
* `checkpoint_manager.py` (class `CheckpointManager`):
  `calculateTotalProgress`, `applyPhaseUpdate`, `saveCheckpoint`,
  `checkExistingCheckpoint`, `isLocalProcessingStepCompleted`.

Text is modelled as `List Char`; Python `len` is `List.length`.
`TextDivider.split_into_sentences` dispatches to NLTK when its data files
are installed and otherwise uses a regex fallback; the embedding models the
regex fallback path (`use_nltk = False`), which is the deterministic
splitter defined by the source itself.
-/

/-- Text of a segment, modelled as a list of characters. -/
abbrev PyText := List Char

/-- ASCII fragment of the Python regex class `\s`. -/
def pyIsSpace (c : Char) : Bool :=
  c = ' ' ∨ c = '\t' ∨ c = '\n' ∨ c = '\r' ∨ c = Char.ofNat 11 ∨ c = Char.ofNat 12

/-- Python `str.strip()`: drop whitespace from both ends. -/
def pyStrip (l : PyText) : PyText :=
  ((l.dropWhile pyIsSpace).reverse.dropWhile pyIsSpace).reverse

/-- A sentence-terminal character of the regex `[.!?]` in
`TextDivider.split_into_sentences`. -/
def isSentencePunct (c : Char) : Bool :=
  c = '.' ∨ c = '!' ∨ c = '?'

/-- Whether the first character of the remaining input is whitespace
(the `\s+` lookahead of the sentence-splitting regex). -/
def headIsSpace : PyText → Bool
  | [] => false
  | c :: _ => pyIsSpace c

/-- Scanner equivalent of `re.split(r'([.!?])\s+', text)` followed by the
rejoining loop of `TextDivider.split_into_sentences`: a sentence ends at a
`[.!?]` character that is followed by whitespace, and the whitespace run is
consumed.  The fuel argument only serves structural recursion; any fuel
value of at least the input length is sufficient, since every step consumes
at least one character and one unit of fuel. -/
def sentScan : Nat → PyText → List PyText
  | _, [] => [[]]
  | 0, l => [l]
  | fuel + 1, c :: rest =>
    if isSentencePunct c ∧ headIsSpace rest then
      [c] :: sentScan fuel (rest.dropWhile pyIsSpace)
    else
      match sentScan fuel rest with
      | [] => [[c]]
      | p :: ps => (c :: p) :: ps

/-- `TextDivider.split_into_sentences` (regex fallback path): empty or
all-whitespace input yields `[]`; otherwise split on sentence boundaries and
drop the pieces whose `strip()` is empty. -/
def splitIntoSentences (l : PyText) : List PyText :=
  if (pyStrip l).isEmpty then []
  else (sentScan l.length l).filter (fun s => ¬ (pyStrip s).isEmpty)

/-- The suffix of `l` strictly after its last newline
(`l` unchanged if it has no newline). -/
def afterLastNewline (l : PyText) : PyText :=
  (l.reverse.takeWhile (fun c => c ≠ '\n')).reverse

/-- Scanner equivalent of `re.split(r'\n\s*\n', text)` in
`TextDivider.detect_paragraphs`: a separator starts at a newline whose
following whitespace run contains another newline; the greedy `\s*` makes
the separator extend to the last newline of that whitespace run.  The fuel
argument only serves structural recursion; any fuel value of at least the
input length is sufficient. -/
def paraScan : Nat → PyText → PyText → List PyText
  | _, [], acc => [acc.reverse]
  | 0, l, acc => [acc.reverse ++ l]
  | fuel + 1, c :: rest, acc =>
    if c = '\n' ∧ (rest.takeWhile pyIsSpace).contains '\n' then
      acc.reverse ::
        paraScan fuel
          (afterLastNewline (rest.takeWhile pyIsSpace) ++ rest.dropWhile pyIsSpace) []
    else
      paraScan fuel rest (c :: acc)

/-- `TextDivider.detect_paragraphs`: split on blank-line separators, strip
each piece, and drop the empty ones. -/
def detectParagraphs (l : PyText) : List PyText :=
  if (pyStrip l).isEmpty then []
  else ((paraScan l.length l []).map pyStrip).filter (fun p => ¬ p.isEmpty)

/-- Python `current_paragraph.endswith((' ', '\n', '\t'))` in
`TextDivider.merge_sentences_into_paragraphs`. -/
def endsWithSeparator (l : PyText) : Bool :=
  match l.getLast? with
  | some c => c = ' ' ∨ c = '\n' ∨ c = '\t'
  | none => false

/-- The sentence-accumulation loop of
`TextDivider.merge_sentences_into_paragraphs`: `cur` is the value of
`current_paragraph`. -/
def mergeLoop (maxLength : Nat) : List PyText → PyText → List PyText
  | [], cur => if cur.isEmpty then [] else [cur]
  | s :: rest, cur =>
    if maxLength < cur.length + s.length ∧ ¬ cur.isEmpty then
      cur :: mergeLoop maxLength rest s
    else
      mergeLoop maxLength rest
        (if ¬ cur.isEmpty ∧ ¬ endsWithSeparator cur then cur ++ ' ' :: s else cur ++ s)

/-- `TextDivider.merge_sentences_into_paragraphs`. -/
def mergeSentencesIntoParagraphs (sentences : List PyText) (maxLength : Nat) :
    List PyText :=
  if sentences.isEmpty then [] else mergeLoop maxLength sentences []

/-- `TextDivider.split_long_segment`. -/
def splitLongSegment (text : PyText) (maxLength : Nat) : List PyText :=
  if text.length ≤ maxLength then [text]
  else
    let paragraphs := detectParagraphs text
    if 1 < paragraphs.length then
      paragraphs.flatMap (fun p =>
        if maxLength < p.length then
          mergeSentencesIntoParagraphs (splitIntoSentences p) maxLength
        else [p])
    else
      mergeSentencesIntoParagraphs (splitIntoSentences text) maxLength

/-- Python `'\n\n' in text`. -/
def containsDoubleNewline : PyText → Bool
  | [] => false
  | [_] => false
  | a :: b :: rest => (a = '\n' ∧ b = '\n') ∨ containsDoubleNewline (b :: rest)

/-- Whether a text contains an internal sentence boundary of the splitting
regex `([.!?])\s+`: a `[.!?]` character immediately followed by whitespace.
A text without such an occurrence is returned whole by the sentence
splitter. -/
def hasSentenceBoundary : PyText → Bool
  | [] => false
  | [_] => false
  | a :: b :: rest => (isSentencePunct a ∧ pyIsSpace b) ∨ hasSentenceBoundary (b :: rest)

/-- `TextDivider.optimize_segments` over `(element, attribute, text)`
triples.  The `batchSize` parameter is accepted and unused, exactly as in
the source. -/
def optimizeSegments {α β : Type} (segments : List (α × β × PyText))
    (batchSize : Nat) (maxSegmentLength : Nat) : List (α × β × PyText) :=
  if segments.isEmpty then []
  else
    segments.flatMap (fun seg =>
      let t := seg.2.2
      if containsDoubleNewline t ∨ maxSegmentLength < t.length then
        let paragraphs := detectParagraphs t
        if 1 < paragraphs.length then
          paragraphs.flatMap (fun p =>
            if maxSegmentLength < p.length then
              (splitLongSegment p maxSegmentLength).map (fun c => (seg.1, seg.2.1, c))
            else [(seg.1, seg.2.1, p)])
        else if maxSegmentLength < t.length then
          (splitLongSegment t maxSegmentLength).map (fun c => (seg.1, seg.2.1, c))
        else [seg]
      else [seg])

/-- Python `\w` (ASCII): the word-character test used by the `\b` anchor in
the heading regex of `TextDivider.group_into_content_aware_batches`. -/
def isWordChar (c : Char) : Bool :=
  c.isAlphanum ∨ c = '_'

/-- The keyword alternatives of the heading regex
`^(Chapter|Section|Part|Appendix|Figure|Table|Note|Warning)\b`. -/
def headingKeywords : List PyText :=
  ["Chapter".toList, "Section".toList, "Part".toList, "Appendix".toList,
   "Figure".toList, "Table".toList, "Note".toList, "Warning".toList]

/-- `re.match(r'^(Chapter|Section|Part|Appendix|Figure|Table|Note|Warning)\b', t)`
as a Boolean: some keyword is a prefix of `t` and the character right after
it (if any) is not a word character. -/
def matchesHeadingRegex (t : PyText) : Bool :=
  headingKeywords.any (fun kw =>
    kw.isPrefixOf t &&
      match t.drop kw.length with
      | [] => true
      | c :: _ => ! isWordChar c)

/-- Python `text.strip().endswith(('.', ',', ';', ':', '?', '!'))`. -/
def isTerminalPunct (c : Char) : Bool :=
  c = '.' ∨ c = ',' ∨ c = ';' ∨ c = ':' ∨ c = '?' ∨ c = '!'

/-- The `is_new_paragraph` heuristic of
`TextDivider.group_into_content_aware_batches`: a heading-regex match on the
stripped text, or a short stripped line (under 40 characters) not ending in
terminal punctuation. -/
def isNewParagraphText (t : PyText) : Bool :=
  if !t.isEmpty && !(pyStrip t).isEmpty && matchesHeadingRegex (pyStrip t) then
    true
  else if !t.isEmpty && decide ((pyStrip t).length < 40) &&
      !(match (pyStrip t).getLast? with
        | some c => isTerminalPunct c
        | none => false) then
    true
  else false

/-- The batching loop of `TextDivider.group_into_content_aware_batches`:
`cur` is `current_batch` and `n` is `current_batch_size`.  Segments whose
text is `none` (Python `None`) are skipped.  A `new paragraph` segment that
would overflow the batch first closes it; reaching `batchSize` closes the
batch unconditionally. -/
def groupLoop {α β : Type} (batchSize : Nat) :
    List (α × β × Option PyText) → List (α × β × Option PyText) → Nat →
      List (List (α × β × Option PyText))
  | [], cur, _ => if cur.isEmpty then [] else [cur]
  | seg :: rest, cur, n =>
    match seg.2.2 with
    | none => groupLoop batchSize rest cur n
    | some t =>
      let flushFirst := isNewParagraphText t ∧ 0 < n ∧ batchSize < n + 1
      let cur1 := if flushFirst then [] else cur
      let n1 := if flushFirst then 0 else n
      let cur2 := cur1 ++ [seg]
      let n2 := n1 + 1
      let tail :=
        if batchSize ≤ n2 then cur2 :: groupLoop batchSize rest [] 0
        else groupLoop batchSize rest cur2 n2
      if flushFirst then cur :: tail else tail

/-- `TextDivider.group_into_content_aware_batches`. -/
def groupIntoContentAwareBatches {α β : Type} (segments : List (α × β × Option PyText))
    (batchSize : Nat) : List (List (α × β × Option PyText)) :=
  if segments.isEmpty then [] else groupLoop batchSize segments [] 0

/-- Tag the text of an optimized segment as present (non-`None`), as it is
when `optimize_segments` output is fed to the grouping pass. -/
def withSomeText {α β : Type} (seg : α × β × PyText) : α × β × Option PyText :=
  (seg.1, seg.2.1, some seg.2.2)

/-! ### Translator (`translator.py`, class `DeepseekTranslator`)

The external Deepseek API is modelled by oracle parameters: `singleApi`
stands for `_translate_single_text` (whose internal extraction fallback and
`_clean_translation` are folded into the returned value; `Except.error`
means the underlying request raised), and `BatchApiResult` describes the
three possible outcomes inside `_translate_batch_texts`. -/

/-- A translation cache key: `(text, source_lang, target_lang)`. -/
abbrev CacheKey := String × String × String

/-- The in-memory state of a `DeepseekTranslator`: language pair and
`translation_cache`.  The cache is an association list with newest entry
first, so lookup sees the latest assignment, like a Python dict. -/
structure TranslatorState where
  sourceLang : String
  targetLang : String
  cache : List (CacheKey × String)

/-- Lookup in the translator cache (Python `cache_key in self.translation_cache`
plus the subsequent indexing). -/
def cacheLookup : List (CacheKey × String) → CacheKey → Option String
  | [], _ => none
  | e :: rest, k => if e.1 = k then some e.2 else cacheLookup rest k

/-- Python `not text.strip()`. -/
def strIsBlank (s : String) : Bool :=
  (pyStrip s.toList).isEmpty

/-- `DeepseekTranslator.translate_text`.  Returns the translated text and
the updated state (or an error if the API call raised), paired with the
number of external API calls performed. -/
def translate_text (st : TranslatorState) (singleApi : String → Except Unit String)
    (text : String) : Except Unit (String × TranslatorState) × Nat :=
  if strIsBlank text then (Except.ok (text, st), 0)
  else
    match cacheLookup st.cache (text, st.sourceLang, st.targetLang) with
    | some v => (Except.ok (v, st), 0)
    | none =>
      match singleApi text with
      | Except.ok r =>
        (Except.ok (r, { st with
          cache := ((text, st.sourceLang, st.targetLang), r) :: st.cache }), 1)
      | Except.error e => (Except.error e, 1)

/-- Outcome of the API interaction inside
`DeepseekTranslator._translate_batch_texts`: the request raised, the
response content could not be extracted (`KeyError`/`IndexError`, caught),
or the response split at the separator into the given parts. -/
inductive BatchApiResult where
  | raised : BatchApiResult
  | extractFailed : BatchApiResult
  | parts : List String → BatchApiResult

/-- `DeepseekTranslator._translate_batch_texts`: on extraction failure
return the originals; otherwise pad short part lists with the original
texts, truncate long ones, and clean every entry. -/
def translateBatchTexts (texts : List String) (api : BatchApiResult)
    (clean : String → String) : Except Unit (List String) :=
  match api with
  | .raised => Except.error ()
  | .extractFailed => Except.ok texts
  | .parts l => Except.ok (((l ++ texts.drop l.length).take texts.length).map clean)

/-- The first loop of `DeepseekTranslator.translate_batch`, scanning
`texts` from position `i`: returns the `translations` list (with `none`
placeholders for cache misses), `texts_to_translate`, and
`indices_to_translate`. -/
def tbScan (st : TranslatorState) : List String → Nat →
    List (Option String) × List String × List Nat
  | [], _ => ([], [], [])
  | t :: rest, i =>
    let (tr, todo, idc) := tbScan st rest (i + 1)
    if strIsBlank t then (some t :: tr, todo, idc)
    else
      match cacheLookup st.cache (t, st.sourceLang, st.targetLang) with
      | some v => (some v :: tr, todo, idc)
      | none => (none :: tr, t :: todo, i :: idc)

/-- The result-merging loop of `DeepseekTranslator.translate_batch`:
`translations[trans_idx] = batch_translations[idx]` for each
`idx < len(batch_translations)` (the `zip` realizes that guard). -/
def tbFill (tr : List (Option String)) (pairs : List (Nat × String)) :
    List (Option String) :=
  pairs.foldl (fun acc p => acc.set p.1 (some p.2)) tr

/-- The cache insertions of the same loop. -/
def tbCacheAfter (st : TranslatorState) (pairs : List (String × String)) :
    List (CacheKey × String) :=
  pairs.foldl (fun c p => ((p.1, st.sourceLang, st.targetLang), p.2) :: c) st.cache

/-- `DeepseekTranslator.translate_batch`.  The returned list is the Python
`translations` list (entries are `Option` because Python initializes the
misses with `None` placeholders); the `Nat` counts external API calls. -/
def translate_batch (st : TranslatorState) (api : BatchApiResult)
    (clean : String → String) (texts : List String) :
    Except Unit (List (Option String) × TranslatorState) × Nat :=
  if texts.isEmpty then (Except.ok ([], st), 0)
  else
    let scan := tbScan st texts 0
    if scan.2.1.isEmpty then (Except.ok (scan.1, st), 0)
    else
      match translateBatchTexts scan.2.1 api clean with
      | Except.error e => (Except.error e, 1)
      | Except.ok batch =>
        (Except.ok (tbFill scan.1 (scan.2.2.zip batch),
          { st with cache := tbCacheAfter st (scan.2.1.zip batch) }), 1)

/-- Translator state resulting from a `translate_text` call (unchanged when
the call raised). -/
def afterTranslateText (st : TranslatorState) (singleApi : String → Except Unit String)
    (text : String) : TranslatorState :=
  match translate_text st singleApi text with
  | (Except.ok (_, st2), _) => st2
  | (Except.error _, _) => st

/-- Translator state resulting from a `translate_batch` call (unchanged
when the call raised). -/
def afterTranslateBatch (st : TranslatorState) (api : BatchApiResult)
    (clean : String → String) (texts : List String) : TranslatorState :=
  match translate_batch st api clean texts with
  | (Except.ok (_, st2), _) => st2
  | (Except.error _, _) => st

/-- Translator states reachable from a fresh instance (whose
`translation_cache` starts empty) through `translate_text` and
`translate_batch` calls.  The `_optimized` variants mutate the cache under
the same non-blank guard, so they add no further states. -/
inductive ReachableTState : TranslatorState → Prop
  | init (sl tl : String) : ReachableTState ⟨sl, tl, []⟩
  | viaText (st : TranslatorState) (singleApi : String → Except Unit String)
      (text : String) (h : ReachableTState st) :
      ReachableTState (afterTranslateText st singleApi text)
  | viaBatch (st : TranslatorState) (api : BatchApiResult)
      (clean : String → String) (texts : List String) (h : ReachableTState st) :
      ReachableTState (afterTranslateBatch st api clean texts)

/-! ### Prepared-batch translation (`epub_processor_translation.py`)

`_translate_prepared_batch` keeps its own processor-level cache
(`self.translation_cache`, a dict whose values are whatever the translator
returned, hence `Option String` in the model), consults it per original
text, sends the misses to `DeepseekTranslator.translate_batch`, and on an
exception from that call falls back to per-text `translate_text` calls,
substituting the original text when even those raise. -/

/-- Lookup in the processor cache. -/
def pCacheLookup : List (String × Option String) → String → Option (Option String)
  | [], _ => none
  | e :: rest, k => if e.1 = k then some e.2 else pCacheLookup rest k

/-- The cache-scanning loop of `_translate_prepared_batch`, from position
`i`: returns `cached_translations`, `translations_to_do`, and
`indices_to_translate`. -/
def ppScan (cache : List (String × Option String)) : List String → Nat →
    List (Nat × Option String) × List String × List Nat
  | [], _ => ([], [], [])
  | t :: rest, i =>
    let (c, todo, idc) := ppScan cache rest (i + 1)
    match pCacheLookup cache t with
    | some v => ((i, v) :: c, todo, idc)
    | none => (c, t :: todo, i :: idc)

/-- The per-text fallback loop of `_translate_prepared_batch` (run when the
batch call raised): translate each text individually, substituting the
original text when the individual call raises too; the translator state is
threaded through the calls. -/
def prepFallback (st : TranslatorState) (singleApi : String → Except Unit String) :
    List String → List (Option String) × TranslatorState
  | [] => ([], st)
  | t :: rest =>
    match translate_text st singleApi t with
    | (Except.ok (v, st2), _) =>
      let r := prepFallback st2 singleApi rest
      (some v :: r.1, r.2)
    | (Except.error _, _) =>
      let r := prepFallback st singleApi rest
      (some t :: r.1, r.2)

/-- The `translated_texts` value computed by `_translate_prepared_batch`
for the cache misses: `[]` when there is nothing to translate (Python keeps
`None`, which is never indexed then), the batch result of
`DeepseekTranslator.translate_batch` when that call returns, and the
per-text fallback when it raises. -/
def prepTranslated (st : TranslatorState) (api : BatchApiResult)
    (clean : String → String) (singleApi : String → Except Unit String)
    (todo : List String) : List (Option String) :=
  if todo.isEmpty then []
  else
    match translate_batch st api clean todo with
    | (Except.ok (tr, _), _) => tr
    | (Except.error _, _) => (prepFallback st singleApi todo).1

/-- The translation core of `_translate_prepared_batch`: produce the
`all_translated_texts` list for the given original texts.  The two folds
write into the `[None] * len(original_texts)` array exactly as the two
`for` loops do (the `zip` realizes the `i < len(translated_texts)`
guard). -/
def translatePreparedBatchCore (pcache : List (String × Option String))
    (st : TranslatorState) (origTexts : List String) (api : BatchApiResult)
    (clean : String → String) (singleApi : String → Except Unit String) :
    List (Option String) :=
  let scan := ppScan pcache origTexts 0
  let translated := prepTranslated st api clean singleApi scan.2.1
  let all0 : List (Option String) := List.replicate origTexts.length none
  let all1 := scan.1.foldl (fun a p => a.set p.1 p.2) all0
  (scan.2.2.zip translated).foldl (fun a p => a.set p.1 p.2) all1

/-! ### Batch dispatch on resume (`translate_prepared_content`) -/

/-- The persisted per-batch status record, as read by
`CheckpointManager.load_batch_status`; only the flag consulted by the
dispatch loop is modelled. -/
structure BatchStatusRec where
  translationCompleted : Bool

/-- Python `batch_status and batch_status.get("translation_completed", False)`:
`none` models both a missing status file and a load error. -/
def batchMarkedCompleted (st : Option BatchStatusRec) : Bool :=
  match st with
  | none => false
  | some s => s.translationCompleted

/-- The submission loop of `translate_prepared_content`: each batch (paired
with its loaded status) is either skipped (recorded as already processed)
or submitted to the translator pool.  Returns `(skipped, submitted)`, both
in traversal order. -/
def planDispatch {κ : Type} (forceRestart : Bool) :
    List (κ × Option BatchStatusRec) →
      List (κ × Option BatchStatusRec) × List (κ × Option BatchStatusRec)
  | [] => ([], [])
  | b :: rest =>
    let r := planDispatch forceRestart rest
    if ¬ forceRestart ∧ batchMarkedCompleted b.2 then (b :: r.1, r.2)
    else (r.1, b :: r.2)

/-! ### Checkpoint progress (`checkpoint_manager.py`) -/

/-- The `terminology` phase record (fields relevant to progress). -/
structure TerminologyPhase where
  completed : Bool
  termsCount : Nat

/-- The `preprocessing` phase record.  `itemsTotal`/`itemsProcessed` are
`Option` because the initial state dict lacks the `items_total` key and
`_calculate_total_progress` reads it with `.get("items_total", 1)` /
`.get("items_processed", 0)`. -/
structure PreprocessingPhase where
  completed : Bool
  itemsTotal : Option Nat
  itemsProcessed : Option Nat

/-- The `translation` phase record (fields consulted by
`_calculate_total_progress`, read with defaults `1` and `0`). -/
structure TranslationPhase where
  completed : Bool
  totalChars : Option Nat
  translatedChars : Option Nat

/-- The `postprocessing` phase record. -/
structure PostprocessingPhase where
  completed : Bool

/-- The four weighted phases of `CheckpointManager.state["phases"]`. -/
structure Phases where
  terminology : TerminologyPhase
  preprocessing : PreprocessingPhase
  translation : TranslationPhase
  postprocessing : PostprocessingPhase

/-- The `terminology` summand of `_calculate_total_progress`. -/
def terminologyContribution (p : Phases) : ℚ :=
  if p.terminology.completed then 5 / 100 else 0

/-- The `preprocessing` summand of `_calculate_total_progress`. -/
def preprocessingContribution (p : Phases) : ℚ :=
  if p.preprocessing.completed then 5 / 100
  else
    let it : ℚ := (p.preprocessing.itemsTotal.getD 1 : Nat)
    let ip : ℚ := (p.preprocessing.itemsProcessed.getD 0 : Nat)
    if 0 < it then 5 / 100 * (ip / it) else 0

/-- The `translation` summand of `_calculate_total_progress`. -/
def translationContribution (p : Phases) : ℚ :=
  if p.translation.completed then 85 / 100
  else
    let tc : ℚ := (p.translation.totalChars.getD 1 : Nat)
    let td : ℚ := (p.translation.translatedChars.getD 0 : Nat)
    if 0 < tc then 85 / 100 * (td / tc) else 0

/-- The `postprocessing` summand of `_calculate_total_progress`. -/
def postprocessingContribution (p : Phases) : ℚ :=
  if p.postprocessing.completed then 5 / 100 else 0

/-- `CheckpointManager._calculate_total_progress`: weighted sum of the four
phases, scaled to a percentage and clamped from above at `100`.  Python
floats are modelled by rationals; the counters are naturals (the claims
quantify over non-negative counter values). -/
def calculateTotalProgress (p : Phases) : ℚ :=
  min 100 ((terminologyContribution p + preprocessingContribution p +
    translationContribution p + postprocessingContribution p) * 100)

/-- The in-memory checkpoint state relevant to progress: the phase records
and the stored `total_progress` scalar. -/
structure CheckpointProgressState where
  phases : Phases
  totalProgress : ℚ

/-- One call to an `update_*_phase` method of `CheckpointManager` (each of
which goes through `update_progress` on a known phase).  The translation
variant models `update_translation_phase(completed=..., **kwargs)`: `none`
means the keyword was not passed, so the stored field is kept. -/
inductive PhaseUpdate where
  | terminology (completed : Bool) (termsCount : Nat)
  | preprocessing (completed : Bool) (itemsTotal itemsProcessed : Nat)
  | translation (completed : Bool) (totalChars translatedChars : Option Nat)
  | postprocessing (completed : Bool)

/-- `CheckpointManager.update_progress`: merge the fields into the phase
record, then store `_calculate_total_progress` of the new phases. -/
def applyPhaseUpdate (s : CheckpointProgressState) (u : PhaseUpdate) :
    CheckpointProgressState :=
  let phases :=
    match u with
    | .terminology c k => { s.phases with terminology := ⟨c, k⟩ }
    | .preprocessing c it ip => { s.phases with preprocessing := ⟨c, some it, some ip⟩ }
    | .translation c tc td =>
      { s.phases with translation :=
        { completed := c
          totalChars := match tc with | some v => some v | none => s.phases.translation.totalChars
          translatedChars := match td with | some v => some v | none => s.phases.translation.translatedChars } }
    | .postprocessing c => { s.phases with postprocessing := ⟨c⟩ }
  { phases := phases, totalProgress := calculateTotalProgress phases }

/-! ### Checkpoint validation and persistence (`checkpoint_manager.py`) -/

/-- Filesystem/OS environment consulted by
`CheckpointManager.is_local_processing_step_completed`.  `chaptersFiles`
lists the contents of `chapters_original`; the code never reads it, but the
claim about this method mentions it, so it is part of the environment. -/
structure StepEnv where
  workdirExists : Bool
  workdirIsDir : Bool
  batchesDirExists : Bool
  batchesDirIsDir : Bool
  batchesFiles : List String
  chaptersDirExists : Bool
  chaptersDirIsDir : Bool
  chaptersFiles : List String

/-- Python `self.state["phases"]["local_processing"].get(step_name, False)`
over the stored step flags. -/
def lookupStepFlag : List (String × Bool) → String → Bool
  | [], _ => false
  | e :: rest, k => if e.1 = k then e.2 else lookupStepFlag rest k

/-- `CheckpointManager.is_local_processing_step_completed`. -/
def isLocalProcessingStepCompleted (env : StepEnv) (flags : List (String × Bool))
    (stepName : String) : Bool :=
  if ¬ env.workdirExists ∨ ¬ env.workdirIsDir then false
  else if stepName = "batch_division_completed" then
    if ¬ env.batchesDirExists ∨ ¬ env.batchesDirIsDir then false
    else if env.batchesFiles.isEmpty then false
    else lookupStepFlag flags stepName
  else if stepName = "chapter_organization_completed" then
    if ¬ env.chaptersDirExists ∨ ¬ env.chaptersDirIsDir then false
    else lookupStepFlag flags stepName
  else lookupStepFlag flags stepName

/-- Outcome of serializing and writing the checkpoint file in
`CheckpointManager.save_checkpoint` (`Except.error` = some exception was
raised inside the `try`). -/
structure SaveEnv where
  writeOutcome : Except Unit Unit

/-- `CheckpointManager.save_checkpoint`: `True` on success, `False` when
writing raised — the exception is swallowed, never propagated. -/
def saveCheckpoint (env : SaveEnv) : Bool :=
  match env.writeOutcome with
  | Except.ok _ => true
  | Except.error _ => false

/-- The parsed content of `checkpoint/status.json` as consulted by
`CheckpointManager.check_existing_checkpoint`.  `phasesBatchDivision` is
`Except` because indexing `checkpoint["phases"]["local_processing"]` can
raise on a malformed file (caught by the surrounding `try`). -/
structure CheckpointFileData where
  sourceFileHash : Option String
  phasesBatchDivision : Except Unit Bool

/-- Environment of `CheckpointManager.check_existing_checkpoint`. -/
structure LoadEnv where
  fileExists : Bool
  parseOutcome : Except Unit CheckpointFileData
  currentHash : Option String
  requiredDirsOk : Bool
  batchFilesListing : Except Unit (List String)

/-- `CheckpointManager.check_existing_checkpoint`: returns
`(exists, valid)` and the resulting in-memory state (`self.state` is
replaced by the loaded checkpoint only on full success). -/
def checkExistingCheckpoint (env : LoadEnv) (st : CheckpointFileData) :
    (Bool × Bool) × CheckpointFileData :=
  if ¬ env.fileExists then ((false, false), st)
  else
    match env.parseOutcome with
    | Except.error _ => ((true, false), st)
    | Except.ok ckpt =>
      if env.currentHash ≠ ckpt.sourceFileHash then ((true, false), st)
      else if ¬ env.requiredDirsOk then ((true, false), st)
      else
        match ckpt.phasesBatchDivision with
        | Except.error _ => ((true, false), st)
        | Except.ok bd =>
          if bd then
            match env.batchFilesListing with
            | Except.error _ => ((true, false), st)
            | Except.ok files =>
              if files.isEmpty then ((true, false), st) else ((true, true), ckpt)
          else ((true, true), ckpt)

example : detectParagraphs "hello\n\nworld".toList = ["hello".toList, "world".toList] := by decide

example : splitIntoSentences "ab. cd.".toList = ["ab.".toList, "cd.".toList] := by decide

example :
    optimizeSegments [((0 : Nat), (0 : Nat), "ab. cd.".toList)] 10 6 =
      [((0 : Nat), (0 : Nat), "ab. cd.".toList)] := by decide

example :
    optimizeSegments [((0 : Nat), (0 : Nat), "hello\n\nworld".toList)] 10 5000 =
      [((0 : Nat), (0 : Nat), "hello".toList), ((0 : Nat), (0 : Nat), "world".toList)] := by
  decide

example :
    groupIntoContentAwareBatches
      [((0 : Nat), (0 : Nat), some "a.".toList), ((1 : Nat), (0 : Nat), none),
       ((2 : Nat), (0 : Nat), some "b.".toList), ((3 : Nat), (0 : Nat), some "c.".toList)] 2 =
      [[((0 : Nat), (0 : Nat), some "a.".toList), ((2 : Nat), (0 : Nat), some "b.".toList)],
       [((3 : Nat), (0 : Nat), some "c.".toList)]] := by decide

example : isNewParagraphText "Chapter 1".toList = true := by decide

example : isNewParagraphText "Chapters are long. They have words. This is a long sentence over forty characters.".toList = false := by decide

/-! ## Lemmas about the grouping pass -/

theorem groupLoop_flatten {α β : Type} (bs : Nat)
    (segs : List (α × β × Option PyText)) :
    ∀ (cur : List (α × β × Option PyText)) (n : Nat),
      (groupLoop bs segs cur n).flatten =
        cur ++ segs.filter (fun seg => seg.2.2.isSome) := by
  induction segs with
  | nil =>
    intro cur n
    by_cases h : cur.isEmpty
    · simp [groupLoop, h, List.isEmpty_iff.mp h]
    · simp [groupLoop, h]
  | cons seg rest ih =>
    intro cur n
    obtain ⟨a, b, t⟩ := seg
    cases t with
    | none => simp [groupLoop, ih]
    | some t =>
      by_cases hF : (isNewParagraphText t = true ∧ 0 < n ∧ bs < n + 1)
      · by_cases h1 : bs ≤ 1
        · simp [groupLoop, hF, h1, ih]
        · simp [groupLoop, hF, h1, ih]
      · by_cases h2 : bs ≤ n + 1
        · simp [groupLoop, hF, h2, ih]
        · simp [groupLoop, hF, h2, ih]

theorem groupLoop_bounds {α β : Type} (bs : Nat) (hbs : 1 ≤ bs)
    (segs : List (α × β × Option PyText)) :
    ∀ (cur : List (α × β × Option PyText)) (n : Nat),
      cur.length = n → n + 1 ≤ bs →
        ∀ b ∈ groupLoop bs segs cur n, b ≠ [] ∧ b.length ≤ bs := by
  induction segs with
  | nil =>
    intro cur n hlen hle b hb
    by_cases h : cur.isEmpty
    · simp [groupLoop, h] at hb
    · simp [groupLoop, h] at hb
      subst hb
      exact ⟨fun hnil => h (by simp [hnil]), by omega⟩
  | cons seg rest ih =>
    intro cur n hlen hle b hb
    obtain ⟨a, bb, t⟩ := seg
    cases t with
    | none =>
      simp only [groupLoop] at hb
      exact ih cur n hlen hle b hb
    | some t =>
      by_cases hF : (isNewParagraphText t = true ∧ 0 < n ∧ bs < n + 1)
      · simp only [groupLoop, if_pos hF] at hb
        rcases List.mem_cons.mp hb with hb | hb
        · subst hb
          refine ⟨fun hnil => ?_, by omega⟩
          rw [hnil] at hlen
          simp at hlen
          omega
        · by_cases h1 : bs ≤ 0 + 1
          · rw [if_pos h1] at hb
            rcases List.mem_cons.mp hb with hb | hb
            · subst hb
              simpa using by omega
            · exact ih [] 0 rfl (by omega) b hb
          · rw [if_neg h1] at hb
            exact ih ([] ++ [(a, bb, some t)]) 1 (by simp) (by omega) b hb
      · simp only [groupLoop, if_neg hF] at hb
        by_cases h2 : bs ≤ n + 1
        · rw [if_pos h2] at hb
          rcases List.mem_cons.mp hb with hb | hb
          · subst hb
            constructor
            · simp
            · simp [hlen]
              omega
          · exact ih [] 0 rfl (by omega) b hb
        · rw [if_neg h2] at hb
          exact ih (cur ++ [(a, bb, some t)]) (n + 1) (by simp [hlen]) (by omega) b hb

/-! ## Lemmas about the sentence splitter and merger -/

theorem sentScan_ne_nil (fuel : Nat) (l : PyText) : sentScan fuel l ≠ [] := by
  match fuel, l with
  | _, [] => simp [sentScan]
  | 0, c :: rest => simp [sentScan]
  | fuel + 1, c :: rest =>
    simp only [sentScan]
    split
    · simp
    · split <;> simp

theorem sentScan_head (fuel : Nat) (l : PyText) (p : PyText) (ps : List PyText)
    (h : sentScan fuel l = p :: ps) : p.head? = l.head? := by
  match fuel, l with
  | _, [] =>
    simp [sentScan] at h
    simp [h.1]
  | 0, c :: rest =>
    simp [sentScan] at h
    simp [h.1]
  | fuel + 1, c :: rest =>
    simp only [sentScan] at h
    split at h
    · rw [List.cons_eq_cons] at h
      simp [← h.1]
    · split at h
      · rw [List.cons_eq_cons] at h
        simp [← h.1]
      · rw [List.cons_eq_cons] at h
        simp [← h.1]

theorem sentScan_noBoundary (fuel : Nat) :
    ∀ (l : PyText), l.length ≤ fuel →
      ∀ p ∈ sentScan fuel l, hasSentenceBoundary p = false := by
  induction fuel with
  | zero =>
    intro l hl p hp
    have hnil : l = [] := List.length_eq_zero.mp (Nat.le_zero.mp hl)
    subst hnil
    simp [sentScan] at hp
    simp [hp, hasSentenceBoundary]
  | succ fuel ih =>
    intro l hl p hp
    cases l with
    | nil =>
      simp [sentScan] at hp
      simp [hp, hasSentenceBoundary]
    | cons c rest =>
      have hrest : rest.length ≤ fuel := by simpa using Nat.succ_le_succ_iff.mp hl
      simp only [sentScan] at hp
      split at hp
      · rcases List.mem_cons.mp hp with hp | hp
        · simp [hp, hasSentenceBoundary]
        · refine ih (rest.dropWhile pyIsSpace) ?_ p hp
          exact le_trans (List.dropWhile_sublist _).length_le hrest
      · rename_i hcond
        rcases hq : sentScan fuel rest with _ | ⟨q, qs⟩
        · exact absurd hq (sentScan_ne_nil fuel rest)
        · rw [hq] at hp
          rcases List.mem_cons.mp hp with hp | hp
          · subst hp
            cases q with
            | nil => simp [hasSentenceBoundary]
            | cons d q2 =>
              have hhead := sentScan_head fuel rest (d :: q2) qs hq
              have hqmem : (d :: q2) ∈ sentScan fuel rest := by
                rw [hq]; exact List.mem_cons_self _ _
              have hqb := ih rest hrest (d :: q2) hqmem
              cases rest with
              | nil => simp at hhead
              | cons e rest2 =>
                simp only [List.head?_cons, Option.some.injEq] at hhead
                subst hhead
                simp only [headIsSpace] at hcond
                simp only [hasSentenceBoundary]
                simp [hqb, hcond]
          · exact ih rest hrest p (by rw [hq]; exact List.mem_cons_of_mem _ hp)

theorem splitIntoSentences_noBoundary (l : PyText) :
    ∀ p ∈ splitIntoSentences l, hasSentenceBoundary p = false := by
  intro p hp
  unfold splitIntoSentences at hp
  split at hp
  · simp at hp
  · exact sentScan_noBoundary l.length l le_rfl p (List.mem_of_mem_filter hp)

theorem mergeLoop_bound (maxLen : Nat) (P : PyText → Prop) :
    ∀ (sents : List PyText) (cur : PyText),
      (∀ s ∈ sents, P s) → (cur = [] ∨ P cur ∨ cur.length ≤ maxLen + 1) →
      ∀ out ∈ mergeLoop maxLen sents cur, P out ∨ out.length ≤ maxLen + 1 := by
  intro sents
  induction sents with
  | nil =>
    intro cur hs hcur out hout
    by_cases h : cur.isEmpty
    · simp [mergeLoop, h] at hout
    · simp [mergeLoop, h] at hout
      subst hout
      rcases hcur with hcur | hcur
      · exact absurd (by simp [hcur]) h
      · exact hcur
  | cons s rest ih =>
    intro cur hs hcur out hout
    simp only [mergeLoop] at hout
    split at hout
    · rename_i hflush
      rcases List.mem_cons.mp hout with hout | hout
      · subst hout
        rcases hcur with hcur | hcur
        · exact absurd (by simp [hcur]) hflush.2
        · exact hcur
      · exact ih s (fun x hx => hs x (by simp [hx])) (Or.inr (Or.inl (hs s (by simp)))) out hout
    · rename_i hnoflush
      refine ih _ (fun x hx => hs x (by simp [hx])) ?_ out hout
      by_cases hc : cur.isEmpty
      · have hcnil : cur = [] := List.isEmpty_iff.mp hc
        subst hcnil
        have hs2 := hs s (by simp)
        refine Or.inr (Or.inl ?_)
        simpa using hs2
      · have hlen : cur.length + s.length ≤ maxLen := by
          rcases Nat.lt_or_ge maxLen (cur.length + s.length) with hlt | hge
          · exact absurd ⟨hlt, by simpa using hc⟩ hnoflush
          · exact hge
        right; right
        split <;> simp <;> omega

theorem mergeSentences_bound (maxLen : Nat) (P : PyText → Prop)
    (sents : List PyText) (hs : ∀ s ∈ sents, P s) :
    ∀ out ∈ mergeSentencesIntoParagraphs sents maxLen,
      P out ∨ out.length ≤ maxLen + 1 := by
  intro out hout
  unfold mergeSentencesIntoParagraphs at hout
  split at hout
  · simp at hout
  · exact mergeLoop_bound maxLen P sents [] hs (Or.inl rfl) out hout

theorem splitLongSegment_bound (t : PyText) (maxLen : Nat) :
    ∀ out ∈ splitLongSegment t maxLen,
      out.length ≤ maxLen + 1 ∨ hasSentenceBoundary out = false := by
  intro out hout
  unfold splitLongSegment at hout
  split at hout
  · rename_i hle
    simp at hout
    subst hout
    omega
  · dsimp only at hout
    split at hout
    · rw [List.mem_flatMap] at hout
      obtain ⟨p, hp, hout⟩ := hout
      split at hout
      · rcases mergeSentences_bound maxLen (fun x => hasSentenceBoundary x = false)
          (splitIntoSentences p) (splitIntoSentences_noBoundary p) out hout with h | h
        · exact Or.inr h
        · exact Or.inl h
      · rename_i hple
        simp at hout
        subst hout
        omega
    · rcases mergeSentences_bound maxLen (fun x => hasSentenceBoundary x = false)
        (splitIntoSentences t) (splitIntoSentences_noBoundary t) out hout with h | h
      · exact Or.inr h
      · exact Or.inl h

theorem optimizeSegments_bound {α β : Type} (segs : List (α × β × PyText)) (bs L : Nat) :
    ∀ seg ∈ optimizeSegments segs bs L,
      seg.2.2.length ≤ L + 1 ∨ hasSentenceBoundary seg.2.2 = false := by
  intro seg hseg
  unfold optimizeSegments at hseg
  split at hseg
  · simp at hseg
  · rw [List.mem_flatMap] at hseg
    obtain ⟨src, hsrc, hseg⟩ := hseg
    dsimp only at hseg
    split at hseg
    · rename_i hlong
      split at hseg
      · rw [List.mem_flatMap] at hseg
        obtain ⟨p, hp, hseg⟩ := hseg
        split at hseg
        · rw [List.mem_map] at hseg
          obtain ⟨chunk, hchunk, hmap⟩ := hseg
          subst hmap
          exact splitLongSegment_bound p L chunk hchunk
        · rename_i hple
          simp at hseg
          subst hseg
          left
          simp at hple
          simpa using Nat.le_succ_of_le hple
      · split at hseg
        · rw [List.mem_map] at hseg
          obtain ⟨chunk, hchunk, hmap⟩ := hseg
          subst hmap
          exact splitLongSegment_bound src.2.2 L chunk hchunk
        · rename_i htle
          simp at hseg
          subst hseg
          left
          simp at htle
          exact Nat.le_succ_of_le htle
    · rename_i hshort
      simp at hseg
      subst hseg
      left
      rw [not_or] at hshort
      exact Nat.le_succ_of_le (Nat.le_of_not_lt hshort.2)

/-! ## Lemmas about the translator cache and batch assembly -/

theorem setFold_length {γ σ : Type} (f : σ → γ) (pairs : List (Nat × σ)) :
    ∀ a : List γ, (pairs.foldl (fun acc p => acc.set p.1 (f p.2)) a).length = a.length := by
  induction pairs with
  | nil => intro a; rfl
  | cons p rest ih =>
    intro a
    simp only [List.foldl_cons]
    rw [ih, List.length_set]

theorem setFold_preserve {γ σ : Type} (f : σ → γ) (pairs : List (Nat × σ)) (k : Nat) :
    ∀ a : List γ, k ∉ pairs.map Prod.fst →
      (pairs.foldl (fun acc p => acc.set p.1 (f p.2)) a)[k]? = a[k]? := by
  induction pairs with
  | nil => intro a _; rfl
  | cons p rest ih =>
    intro a hk
    simp only [List.map_cons, List.mem_cons] at hk
    push_neg at hk
    simp only [List.foldl_cons]
    rw [ih _ hk.2, List.getElem?_set_ne hk.1.symm]

theorem setFold_hit {γ σ : Type} (f : σ → γ) (pairs : List (Nat × σ)) (k : Nat) (v : σ) :
    ∀ a : List γ, (pairs.map Prod.fst).Nodup → (k, v) ∈ pairs → k < a.length →
      (pairs.foldl (fun acc p => acc.set p.1 (f p.2)) a)[k]? = some (f v) := by
  induction pairs with
  | nil => intro a _ hmem _; simp at hmem
  | cons p rest ih =>
    intro a hnd hmem hlt
    obtain ⟨pk, pv⟩ := p
    simp only [List.map_cons, List.nodup_cons] at hnd
    simp only [List.foldl_cons]
    rcases List.mem_cons.mp hmem with hmem | hmem
    · rw [Prod.mk.injEq] at hmem
      obtain ⟨hk, hv⟩ := hmem
      subst hk; subst hv
      rw [setFold_preserve f rest k _ hnd.1,
        List.getElem?_set_self (by simpa using hlt)]
    · exact ih _ hnd.2 hmem (by simpa using hlt)

theorem consFold_mem {δ ε : Type} (g : δ → ε) (pairs : List δ) :
    ∀ (init : List ε) (e : ε), e ∈ pairs.foldl (fun c p => g p :: c) init →
      e ∈ init ∨ ∃ p ∈ pairs, e = g p := by
  induction pairs with
  | nil => intro init e he; exact Or.inl he
  | cons p rest ih =>
    intro init e he
    simp only [List.foldl_cons] at he
    rcases ih (g p :: init) e he with h | h
    · rcases List.mem_cons.mp h with h | h
      · exact Or.inr ⟨p, by simp, h⟩
      · exact Or.inl h
    · obtain ⟨q, hq, he⟩ := h
      exact Or.inr ⟨q, by simp [hq], he⟩

theorem translateBatchTexts_length (texts : List String) (api : BatchApiResult)
    (clean : String → String) (l : List String)
    (h : translateBatchTexts texts api clean = Except.ok l) : l.length = texts.length := by
  cases api with
  | raised => simp [translateBatchTexts] at h
  | extractFailed =>
    simp [translateBatchTexts] at h
    simp [← h]
  | parts m =>
    simp only [translateBatchTexts, Except.ok.injEq] at h
    subst h
    simp only [List.length_map, List.length_take, List.length_append, List.length_drop]
    omega

theorem tbScan_tr (st : TranslatorState) :
    ∀ (texts : List String) (i : Nat),
      (tbScan st texts i).1 = texts.map (fun t =>
        if strIsBlank t then some t
        else cacheLookup st.cache (t, st.sourceLang, st.targetLang)) := by
  intro texts
  induction texts with
  | nil => intro i; rfl
  | cons t rest ih =>
    intro i
    simp only [tbScan, List.map_cons]
    rcases h : tbScan st rest (i + 1) with ⟨tr, todo, idc⟩
    have htr := ih (i + 1)
    rw [h] at htr
    by_cases hb : strIsBlank t
    · simp only [h, if_pos hb, List.cons.injEq]
      exact ⟨trivial, htr⟩
    · rcases hl : cacheLookup st.cache (t, st.sourceLang, st.targetLang) with _ | v
      · simp only [h, if_neg hb, hl, List.cons.injEq]
        exact ⟨trivial, htr⟩
      · simp only [h, if_neg hb, hl, List.cons.injEq]
        exact ⟨trivial, htr⟩

theorem tbScan_length_eq (st : TranslatorState) :
    ∀ (texts : List String) (i : Nat),
      (tbScan st texts i).2.1.length = (tbScan st texts i).2.2.length := by
  intro texts
  induction texts with
  | nil => intro i; rfl
  | cons t rest ih =>
    intro i
    simp only [tbScan]
    rcases h : tbScan st rest (i + 1) with ⟨tr, todo, idc⟩
    have := ih (i + 1)
    rw [h] at this
    by_cases hb : strIsBlank t
    · simpa [h, hb] using this
    · rcases hl : cacheLookup st.cache (t, st.sourceLang, st.targetLang) with _ | v
      · simpa [h, hb, hl] using this
      · simpa [h, hb, hl] using this

theorem tbScan_todo_prop (st : TranslatorState) :
    ∀ (texts : List String) (i : Nat) (t : String), t ∈ (tbScan st texts i).2.1 →
      strIsBlank t = false ∧
        cacheLookup st.cache (t, st.sourceLang, st.targetLang) = none := by
  intro texts
  induction texts with
  | nil => intro i t ht; simp [tbScan] at ht
  | cons u rest ih =>
    intro i t ht
    simp only [tbScan] at ht
    rcases h : tbScan st rest (i + 1) with ⟨tr, todo, idc⟩
    rw [h] at ht
    by_cases hb : strIsBlank u
    · simp only [if_pos hb] at ht
      exact ih (i + 1) t (by rw [h]; exact ht)
    · rcases hl : cacheLookup st.cache (u, st.sourceLang, st.targetLang) with _ | v
      · rw [if_neg hb, hl] at ht
        rcases List.mem_cons.mp ht with ht | ht
        · subst ht
          exact ⟨by simpa using hb, hl⟩
        · exact ih (i + 1) t (by rw [h]; exact ht)
      · rw [if_neg hb, hl] at ht
        exact ih (i + 1) t (by rw [h]; exact ht)

theorem tbScan_idc_prop (st : TranslatorState) :
    ∀ (texts : List String) (i : Nat) (k : Nat), k ∈ (tbScan st texts i).2.2 →
      ∃ j, ∃ hj : j < texts.length, k = i + j ∧
        strIsBlank (texts.get ⟨j, hj⟩) = false ∧
        cacheLookup st.cache (texts.get ⟨j, hj⟩, st.sourceLang, st.targetLang) = none := by
  intro texts
  induction texts with
  | nil => intro i k hk; simp [tbScan] at hk
  | cons t rest ih =>
    intro i k hk
    simp only [tbScan] at hk
    rcases h : tbScan st rest (i + 1) with ⟨tr, todo, idc⟩
    rw [h] at hk
    have ihk : k ∈ idc →
        ∃ j, ∃ hj : j < rest.length, k = (i + 1) + j ∧
          strIsBlank (rest.get ⟨j, hj⟩) = false ∧
          cacheLookup st.cache (rest.get ⟨j, hj⟩, st.sourceLang, st.targetLang) = none := by
      intro hm
      exact ih (i + 1) k (by rw [h]; exact hm)
    by_cases hb : strIsBlank t
    · rw [if_pos hb] at hk
      obtain ⟨j, hj, hk1, hk2, hk3⟩ := ihk hk
      exact ⟨j + 1, by simpa using Nat.succ_lt_succ hj, by omega, hk2, hk3⟩
    · rcases hl : cacheLookup st.cache (t, st.sourceLang, st.targetLang) with _ | v
      · rw [if_neg hb, hl] at hk
        rcases List.mem_cons.mp hk with hk | hk
        · subst hk
          exact ⟨0, by simp, by omega, by simpa using hb, hl⟩
        · obtain ⟨j, hj, hk1, hk2, hk3⟩ := ihk hk
          exact ⟨j + 1, by simpa using Nat.succ_lt_succ hj, by omega, hk2, hk3⟩
      · rw [if_neg hb, hl] at hk
        obtain ⟨j, hj, hk1, hk2, hk3⟩ := ihk hk
        exact ⟨j + 1, by simpa using Nat.succ_lt_succ hj, by omega, hk2, hk3⟩

theorem tbScan_miss_get (st : TranslatorState) :
    ∀ (texts : List String) (i : Nat) (j : Nat) (hj : j < texts.length),
      strIsBlank (texts.get ⟨j, hj⟩) = false →
      cacheLookup st.cache (texts.get ⟨j, hj⟩, st.sourceLang, st.targetLang) = none →
      ∃ r : Nat, (tbScan st texts i).2.2[r]? = some (i + j) ∧
        (tbScan st texts i).2.1[r]? = some (texts.get ⟨j, hj⟩) := by
  intro texts
  induction texts with
  | nil => intro i j hj; simp at hj
  | cons t rest ih =>
    intro i j hj hbj hlj
    rcases h : tbScan st rest (i + 1) with ⟨tr, todo, idc⟩
    cases j with
    | zero =>
      have hbj2 : strIsBlank t = false := hbj
      have hlj2 : cacheLookup st.cache (t, st.sourceLang, st.targetLang) = none := hlj
      refine ⟨0, ?_, ?_⟩
      · simp only [tbScan, h]
        rw [if_neg (by simp [hbj2]), hlj2]
        simp
      · simp only [tbScan, h]
        rw [if_neg (by simp [hbj2]), hlj2]
        simp
    | succ j =>
      obtain ⟨r, hr1, hr2⟩ := ih (i + 1) j (Nat.succ_lt_succ_iff.mp hj) hbj hlj
      rw [h] at hr1 hr2
      have harith : i + 1 + j = i + (j + 1) := by omega
      rw [harith] at hr1
      simp only [tbScan, h]
      by_cases hb : strIsBlank t
      · rw [if_pos hb]
        exact ⟨r, hr1, hr2⟩
      · rcases hl : cacheLookup st.cache (t, st.sourceLang, st.targetLang) with _ | v
        · rw [if_neg hb]
          refine ⟨r + 1, ?_, ?_⟩
          · simpa using hr1
          · simpa using hr2
        · rw [if_neg hb]
          exact ⟨r, hr1, hr2⟩

theorem tbScan_idc_nodup (st : TranslatorState) :
    ∀ (texts : List String) (i : Nat), (tbScan st texts i).2.2.Nodup := by
  intro texts
  induction texts with
  | nil => intro i; simp [tbScan]
  | cons t rest ih =>
    intro i
    simp only [tbScan]
    rcases h : tbScan st rest (i + 1) with ⟨tr, todo, idc⟩
    have hnd : idc.Nodup := by
      have := ih (i + 1)
      rw [h] at this
      exact this
    by_cases hb : strIsBlank t
    · rw [if_pos hb]
      exact hnd
    · rcases hl : cacheLookup st.cache (t, st.sourceLang, st.targetLang) with _ | v
      · rw [if_neg hb]
        refine List.nodup_cons.mpr ⟨?_, hnd⟩
        intro hmem
        obtain ⟨j, hj, hk1, _, _⟩ := tbScan_idc_prop st rest (i + 1) i (by rw [h]; exact hmem)
        omega
      · rw [if_neg hb]
        exact hnd

theorem translate_batch_ok (st : TranslatorState) (api : BatchApiResult)
    (clean : String → String) (texts : List String) (tr : List (Option String))
    (st2 : TranslatorState) (n : Nat)
    (h : translate_batch st api clean texts = (Except.ok (tr, st2), n)) :
    tr.length = texts.length ∧
      (∀ j, j < texts.length → ∃ s : String, tr[j]? = some (some s)) ∧
      (∀ j (hj : j < texts.length) (v : String),
        strIsBlank (texts.get ⟨j, hj⟩) = false →
        cacheLookup st.cache (texts.get ⟨j, hj⟩, st.sourceLang, st.targetLang) = some v →
        tr[j]? = some (some v)) := by
  have hmap := tbScan_tr st texts 0
  unfold translate_batch at h
  by_cases he : texts.isEmpty
  · rw [if_pos he] at h
    simp only [Prod.mk.injEq, Except.ok.injEq] at h
    have hnil : texts = [] := List.isEmpty_iff.mp he
    subst hnil
    obtain ⟨⟨h1, _⟩, _⟩ := h
    subst h1
    refine ⟨rfl, ?_, ?_⟩
    · intro j hj; simp at hj
    · intro j hj; simp at hj
  · rw [if_neg he] at h
    dsimp only at h
    by_cases ht : (tbScan st texts 0).2.1.isEmpty
    · rw [if_pos ht] at h
      simp only [Prod.mk.injEq, Except.ok.injEq] at h
      obtain ⟨⟨h1, _⟩, _⟩ := h
      subst h1
      rw [hmap]
      refine ⟨by simp, ?_, ?_⟩
      · intro j hj
        rcases hjt : texts[j]? with _ | t
        · rw [List.getElem?_eq_getElem hj] at hjt; simp at hjt
        · have hget : texts.get ⟨j, hj⟩ = t := by
            have := List.getElem?_eq_getElem hj
            rw [hjt] at this
            simpa [List.get_eq_getElem] using this.symm
          by_cases hb : strIsBlank t
          · exact ⟨t, by simp [hjt, hb]⟩
          · rcases hl : cacheLookup st.cache (t, st.sourceLang, st.targetLang) with _ | v
            · exfalso
              obtain ⟨r, _, hr2⟩ := tbScan_miss_get st texts 0 j hj
                (by rw [hget]; simpa using hb) (by rw [hget]; exact hl)
              have hmem := List.getElem?_mem hr2
              rw [List.isEmpty_iff.mp ht] at hmem
              simp at hmem
            · exact ⟨v, by simp [hjt, hb, hl]⟩
      · intro j hj v hb hl
        have hjt : texts[j]? = some (texts.get ⟨j, hj⟩) := by
          rw [List.getElem?_eq_getElem hj]
          simp [List.get_eq_getElem]
        simp only [List.getElem?_map, hjt, Option.map_some']
        rw [if_neg (by simp only [Bool.not_eq_true]; exact hb), hl]
    · rw [if_neg ht] at h
      rcases hbt : translateBatchTexts (tbScan st texts 0).2.1 api clean with e | batch
      · rw [hbt] at h; simp at h
      · rw [hbt] at h
        simp only [Prod.mk.injEq, Except.ok.injEq] at h
        obtain ⟨⟨h1, _⟩, _⟩ := h
        subst h1
        have hblen : batch.length = (tbScan st texts 0).2.1.length :=
          translateBatchTexts_length _ api clean batch hbt
        have hlen2 := tbScan_length_eq st texts 0
        have hfsts : ((tbScan st texts 0).2.2.zip batch).map Prod.fst = (tbScan st texts 0).2.2 :=
          List.map_fst_zip _ _ (by omega)
        have hscanlen : (tbScan st texts 0).1.length = texts.length := by
          rw [hmap]; simp
        have hnotin : ∀ j (hj : j < texts.length),
            (strIsBlank (texts.get ⟨j, hj⟩) = true ∨
              (tbScan st texts 0).1[j]? ≠ some none) →
            j ∉ (tbScan st texts 0).2.2 := by
          intro j hj hcase hmem
          obtain ⟨j2, hj2, hjeq, hmiss1, hmiss2⟩ := tbScan_idc_prop st texts 0 j hmem
          have hg : texts.get ⟨j2, hj2⟩ = texts.get ⟨j, hj⟩ := by
            congr 1
            exact Fin.ext (show j2 = j by omega)
          rw [hg] at hmiss1 hmiss2
          rcases hcase with hcase | hcase
          · rw [hmiss1] at hcase; simp at hcase
          · apply hcase
            rw [hmap]
            have hjt : texts[j]? = some (texts.get ⟨j, hj⟩) := by
              rw [List.getElem?_eq_getElem hj]
              simp [List.get_eq_getElem]
            simp only [List.getElem?_map, hjt, Option.map_some']
            rw [if_neg (by simp only [Bool.not_eq_true]; exact hmiss1), hmiss2]
        refine ⟨?_, ?_, ?_⟩
        · unfold tbFill
          rw [setFold_length some, hscanlen]
        · intro j hj
          rcases hjt : texts[j]? with _ | t
          · rw [List.getElem?_eq_getElem hj] at hjt; simp at hjt
          · have hget : texts.get ⟨j, hj⟩ = t := by
              have := List.getElem?_eq_getElem hj
              rw [hjt] at this
              simpa [List.get_eq_getElem] using this.symm
            by_cases hmiss : strIsBlank t = false ∧
                cacheLookup st.cache (t, st.sourceLang, st.targetLang) = none
            · obtain ⟨r, hr1, hr2⟩ := tbScan_miss_get st texts 0 j hj
                (by rw [hget]; exact hmiss.1) (by rw [hget]; exact hmiss.2)
              rw [Nat.zero_add] at hr1
              have hrlt : r < (tbScan st texts 0).2.2.length := by
                rcases List.getElem?_eq_some_iff.mp hr1 with ⟨hh, _⟩
                exact hh
              have hrb : r < batch.length := by omega
              have hzip : ((tbScan st texts 0).2.2.zip batch)[r]? =
                  some (j, batch.get ⟨r, hrb⟩) := by
                rw [List.getElem?_zip_eq_some]
                exact ⟨hr1, by rw [List.getElem?_eq_getElem hrb]; simp [List.get_eq_getElem]⟩
              have hmem := List.getElem?_mem hzip
              refine ⟨batch.get ⟨r, hrb⟩, ?_⟩
              unfold tbFill
              rw [setFold_hit some _ j (batch.get ⟨r, hrb⟩) _
                (by rw [hfsts]; exact tbScan_idc_nodup st texts 0) hmem (by omega)]
            · have hnot : j ∉ (tbScan st texts 0).2.2 := by
                refine hnotin j hj (Or.inr ?_)
                rw [hmap]
                have hjt2 : texts[j]? = some (texts.get ⟨j, hj⟩) := by
                  rw [List.getElem?_eq_getElem hj]
                  simp [List.get_eq_getElem]
                simp only [List.getElem?_map, hjt2, Option.map_some']
                rw [hget]
                by_cases hb : strIsBlank t
                · simp [hb]
                · rcases hl : cacheLookup st.cache (t, st.sourceLang, st.targetLang) with _ | v
                  · exact absurd ⟨by simpa using hb, hl⟩ hmiss
                  · simp [hb, hl]
              unfold tbFill
              rw [setFold_preserve some _ j _ (by rw [hfsts]; exact hnot), hmap]
              have hjt2 : texts[j]? = some (texts.get ⟨j, hj⟩) := by
                rw [List.getElem?_eq_getElem hj]
                simp [List.get_eq_getElem]
              simp only [List.getElem?_map, hjt2, Option.map_some']
              rw [hget]
              by_cases hb : strIsBlank t
              · exact ⟨t, by simp [hb]⟩
              · rcases hl : cacheLookup st.cache (t, st.sourceLang, st.targetLang) with _ | v
                · exact absurd ⟨by simpa using hb, hl⟩ hmiss
                · exact ⟨v, by simp [hb, hl]⟩
        · intro j hj v hb hl
          have hnot : j ∉ (tbScan st texts 0).2.2 := by
            intro hmem
            obtain ⟨j2, hj2, hjeq, hmiss1, hmiss2⟩ := tbScan_idc_prop st texts 0 j hmem
            have hg : texts.get ⟨j2, hj2⟩ = texts.get ⟨j, hj⟩ := by
              congr 1
              exact Fin.ext (show j2 = j by omega)
            rw [hg] at hmiss2
            rw [hl] at hmiss2
            simp at hmiss2
          unfold tbFill
          rw [setFold_preserve some _ j _ (by rw [hfsts]; exact hnot), hmap]
          have hjt2 : texts[j]? = some (texts.get ⟨j, hj⟩) := by
            rw [List.getElem?_eq_getElem hj]
            simp [List.get_eq_getElem]
          simp only [List.getElem?_map, hjt2, Option.map_some']
          rw [if_neg (by simp only [Bool.not_eq_true]; exact hb), hl]

theorem cacheLookup_mem :
    ∀ (c : List (CacheKey × String)) (k : CacheKey) (v : String),
      cacheLookup c k = some v → (k, v) ∈ c := by
  intro c
  induction c with
  | nil => intro k v h; simp [cacheLookup] at h
  | cons e rest ih =>
    intro k v h
    obtain ⟨e1, e2⟩ := e
    unfold cacheLookup at h
    split at h
    · rename_i heq
      have h1 : e1 = k := heq
      have h2 : e2 = v := by simpa using h
      subst h1
      subst h2
      exact List.mem_cons_self _ _
    · exact List.mem_cons_of_mem _ (ih k v h)

theorem translate_text_cache_hit (st : TranslatorState)
    (singleApi : String → Except Unit String) (text v : String)
    (hb : strIsBlank text = false)
    (hv : cacheLookup st.cache (text, st.sourceLang, st.targetLang) = some v) :
    translate_text st singleApi text = (Except.ok (v, st), 0) := by
  unfold translate_text
  rw [if_neg (by simp [hb]), hv]

theorem translate_text_cache_sub (st : TranslatorState)
    (singleApi : String → Except Unit String) (text : String) :
    ∀ e ∈ (afterTranslateText st singleApi text).cache,
      e ∈ st.cache ∨ strIsBlank e.1.1 = false := by
  intro e he
  unfold afterTranslateText translate_text at he
  by_cases hb : strIsBlank text
  · rw [if_pos hb] at he
    exact Or.inl he
  · rw [if_neg hb] at he
    rcases hl : cacheLookup st.cache (text, st.sourceLang, st.targetLang) with _ | v
    · rw [hl] at he
      rcases ha : singleApi text with e2 | r
      · rw [ha] at he
        exact Or.inl he
      · rw [ha] at he
        simp only at he
        rcases List.mem_cons.mp he with he | he
        · subst he
          exact Or.inr (by simpa using hb)
        · exact Or.inl he
    · rw [hl] at he
      exact Or.inl he

theorem translate_batch_cache_sub (st : TranslatorState) (api : BatchApiResult)
    (clean : String → String) (texts : List String) :
    ∀ e ∈ (afterTranslateBatch st api clean texts).cache,
      e ∈ st.cache ∨ strIsBlank e.1.1 = false := by
  intro e he
  unfold afterTranslateBatch translate_batch at he
  by_cases hte : texts.isEmpty
  · rw [if_pos hte] at he
    exact Or.inl he
  · rw [if_neg hte] at he
    dsimp only at he
    by_cases ht : (tbScan st texts 0).2.1.isEmpty
    · rw [if_pos ht] at he
      exact Or.inl he
    · rw [if_neg ht] at he
      rcases hbt : translateBatchTexts (tbScan st texts 0).2.1 api clean with e2 | batch
      · rw [hbt] at he
        exact Or.inl he
      · rw [hbt] at he
        simp only at he
        unfold tbCacheAfter at he
        rcases consFold_mem _ _ _ _ he with h2 | h2
        · exact Or.inl h2
        · obtain ⟨p, hp, hpe⟩ := h2
          subst hpe
          have hmem := (List.of_mem_zip hp).1
          exact Or.inr (tbScan_todo_prop st texts 0 p.1 hmem).1

theorem reachable_cache_keys (st : TranslatorState) (h : ReachableTState st) :
    ∀ e ∈ st.cache, strIsBlank e.1.1 = false := by
  induction h with
  | init sl tl => intro e he; simp at he
  | viaText st0 singleApi text _ ih =>
    intro e he
    rcases translate_text_cache_sub st0 singleApi text e he with h2 | h2
    · exact ih e h2
    · exact h2
  | viaBatch st0 api clean texts _ ih =>
    intro e he
    rcases translate_batch_cache_sub st0 api clean texts e he with h2 | h2
    · exact ih e h2
    · exact h2

/-! ## Lemmas about the prepared-batch translation core -/

theorem ppScan_length_eq (cache : List (String × Option String)) :
    ∀ (texts : List String) (i : Nat),
      (ppScan cache texts i).2.1.length = (ppScan cache texts i).2.2.length := by
  intro texts
  induction texts with
  | nil => intro i; rfl
  | cons t rest ih =>
    intro i
    simp only [ppScan]
    rcases h : ppScan cache rest (i + 1) with ⟨c, todo, idc⟩
    have := ih (i + 1)
    rw [h] at this
    rcases hl : pCacheLookup cache t with _ | v
    · simpa using this
    · simpa using this

theorem ppScan_idc_prop (cache : List (String × Option String)) :
    ∀ (texts : List String) (i : Nat) (k : Nat), k ∈ (ppScan cache texts i).2.2 →
      ∃ j, ∃ hj : j < texts.length, k = i + j ∧
        pCacheLookup cache (texts.get ⟨j, hj⟩) = none := by
  intro texts
  induction texts with
  | nil => intro i k hk; simp [ppScan] at hk
  | cons t rest ih =>
    intro i k hk
    simp only [ppScan] at hk
    rcases h : ppScan cache rest (i + 1) with ⟨c, todo, idc⟩
    rw [h] at hk
    have ihk : k ∈ idc →
        ∃ j, ∃ hj : j < rest.length, k = (i + 1) + j ∧
          pCacheLookup cache (rest.get ⟨j, hj⟩) = none := by
      intro hm
      exact ih (i + 1) k (by rw [h]; exact hm)
    rcases hl : pCacheLookup cache t with _ | v
    · rw [hl] at hk
      rcases List.mem_cons.mp hk with hk | hk
      · subst hk
        exact ⟨0, by simp, by omega, hl⟩
      · obtain ⟨j, hj, hk1, hk2⟩ := ihk hk
        exact ⟨j + 1, by simpa using Nat.succ_lt_succ hj, by omega, hk2⟩
    · rw [hl] at hk
      obtain ⟨j, hj, hk1, hk2⟩ := ihk hk
      exact ⟨j + 1, by simpa using Nat.succ_lt_succ hj, by omega, hk2⟩

theorem ppScan_cached_prop (cache : List (String × Option String)) :
    ∀ (texts : List String) (i : Nat) (p : Nat × Option String),
      p ∈ (ppScan cache texts i).1 →
      ∃ j, ∃ hj : j < texts.length, p.1 = i + j ∧
        pCacheLookup cache (texts.get ⟨j, hj⟩) = some p.2 := by
  intro texts
  induction texts with
  | nil => intro i p hp; simp [ppScan] at hp
  | cons t rest ih =>
    intro i p hp
    simp only [ppScan] at hp
    rcases h : ppScan cache rest (i + 1) with ⟨c, todo, idc⟩
    rw [h] at hp
    have ihp : p ∈ c →
        ∃ j, ∃ hj : j < rest.length, p.1 = (i + 1) + j ∧
          pCacheLookup cache (rest.get ⟨j, hj⟩) = some p.2 := by
      intro hm
      exact ih (i + 1) p (by rw [h]; exact hm)
    rcases hl : pCacheLookup cache t with _ | v
    · rw [hl] at hp
      obtain ⟨j, hj, hk1, hk2⟩ := ihp hp
      exact ⟨j + 1, by simpa using Nat.succ_lt_succ hj, by omega, hk2⟩
    · rw [hl] at hp
      rcases List.mem_cons.mp hp with hp | hp
      · subst hp
        exact ⟨0, by simp, by omega, hl⟩
      · obtain ⟨j, hj, hk1, hk2⟩ := ihp hp
        exact ⟨j + 1, by simpa using Nat.succ_lt_succ hj, by omega, hk2⟩

theorem ppScan_cached_get (cache : List (String × Option String)) :
    ∀ (texts : List String) (i : Nat) (j : Nat) (hj : j < texts.length)
      (v : Option String), pCacheLookup cache (texts.get ⟨j, hj⟩) = some v →
      (i + j, v) ∈ (ppScan cache texts i).1 := by
  intro texts
  induction texts with
  | nil => intro i j hj; simp at hj
  | cons t rest ih =>
    intro i j hj v hv
    simp only [ppScan]
    rcases h : ppScan cache rest (i + 1) with ⟨c, todo, idc⟩
    cases j with
    | zero =>
      have hv2 : pCacheLookup cache t = some v := hv
      rw [hv2]
      simpa using Or.inl rfl
    | succ j =>
      have hmem := ih (i + 1) j (Nat.succ_lt_succ_iff.mp hj) v hv
      rw [h] at hmem
      have harith : i + 1 + j = i + (j + 1) := by omega
      rw [harith] at hmem
      rcases hl : pCacheLookup cache t with _ | w
      · dsimp only
        exact hmem
      · dsimp only
        exact List.mem_cons_of_mem _ hmem

theorem ppScan_miss_get (cache : List (String × Option String)) :
    ∀ (texts : List String) (i : Nat) (j : Nat) (hj : j < texts.length),
      pCacheLookup cache (texts.get ⟨j, hj⟩) = none →
      ∃ r : Nat, (ppScan cache texts i).2.2[r]? = some (i + j) ∧
        (ppScan cache texts i).2.1[r]? = some (texts.get ⟨j, hj⟩) := by
  intro texts
  induction texts with
  | nil => intro i j hj; simp at hj
  | cons t rest ih =>
    intro i j hj hlj
    rcases h : ppScan cache rest (i + 1) with ⟨c, todo, idc⟩
    cases j with
    | zero =>
      have hlj2 : pCacheLookup cache t = none := hlj
      refine ⟨0, ?_, ?_⟩
      · simp only [ppScan, h]
        rw [hlj2]
        simp
      · simp only [ppScan, h]
        rw [hlj2]
        simp
    | succ j =>
      obtain ⟨r, hr1, hr2⟩ := ih (i + 1) j (Nat.succ_lt_succ_iff.mp hj) hlj
      rw [h] at hr1 hr2
      have harith : i + 1 + j = i + (j + 1) := by omega
      rw [harith] at hr1
      simp only [ppScan, h]
      rcases hl : pCacheLookup cache t with _ | v
      · refine ⟨r + 1, ?_, ?_⟩
        · simpa using hr1
        · simpa using hr2
      · exact ⟨r, hr1, hr2⟩

theorem ppScan_idc_nodup (cache : List (String × Option String)) :
    ∀ (texts : List String) (i : Nat), (ppScan cache texts i).2.2.Nodup := by
  intro texts
  induction texts with
  | nil => intro i; simp [ppScan]
  | cons t rest ih =>
    intro i
    simp only [ppScan]
    rcases h : ppScan cache rest (i + 1) with ⟨c, todo, idc⟩
    have hnd : idc.Nodup := by
      have := ih (i + 1)
      rw [h] at this
      exact this
    rcases hl : pCacheLookup cache t with _ | v
    · refine List.nodup_cons.mpr ⟨?_, hnd⟩
      intro hmem
      obtain ⟨j, hj, hk1, _⟩ := ppScan_idc_prop cache rest (i + 1) i (by rw [h]; exact hmem)
      omega
    · exact hnd

theorem ppScan_cached_fst_nodup (cache : List (String × Option String)) :
    ∀ (texts : List String) (i : Nat), ((ppScan cache texts i).1.map Prod.fst).Nodup := by
  intro texts
  induction texts with
  | nil => intro i; simp [ppScan]
  | cons t rest ih =>
    intro i
    simp only [ppScan]
    rcases h : ppScan cache rest (i + 1) with ⟨c, todo, idc⟩
    have hnd : (c.map Prod.fst).Nodup := by
      have := ih (i + 1)
      rw [h] at this
      exact this
    rcases hl : pCacheLookup cache t with _ | v
    · exact hnd
    · refine List.nodup_cons.mpr ⟨?_, hnd⟩
      intro hmem
      rcases List.mem_map.mp hmem with ⟨p, hp, hpe⟩
      obtain ⟨j, hj, hk1, _⟩ := ppScan_cached_prop cache rest (i + 1) p (by rw [h]; exact hp)
      omega

theorem ppScan_cached_ub (cache : List (String × Option String))
    (texts : List String) (i : Nat) :
    ∀ p ∈ (ppScan cache texts i).1, p.1 < i + texts.length := by
  intro p hp
  obtain ⟨j, hj, hk1, _⟩ := ppScan_cached_prop cache texts i p hp
  omega

theorem setFoldId_length (pairs : List (Nat × Option String)) (a : List (Option String)) :
    (pairs.foldl (fun acc p => acc.set p.1 p.2) a).length = a.length :=
  setFold_length (fun x => x) pairs a

theorem setFoldId_preserve (pairs : List (Nat × Option String)) (k : Nat)
    (a : List (Option String)) (hk : k ∉ pairs.map Prod.fst) :
    (pairs.foldl (fun acc p => acc.set p.1 p.2) a)[k]? = a[k]? :=
  setFold_preserve (fun x => x) pairs k a hk

theorem setFoldId_hit (pairs : List (Nat × Option String)) (k : Nat) (v : Option String)
    (a : List (Option String)) (hnd : (pairs.map Prod.fst).Nodup)
    (hmem : (k, v) ∈ pairs) (hlt : k < a.length) :
    (pairs.foldl (fun acc p => acc.set p.1 p.2) a)[k]? = some v :=
  setFold_hit (fun x => x) pairs k v a hnd hmem hlt

theorem translate_text_ok_state (st : TranslatorState)
    (singleApi : String → Except Unit String) (u v : String)
    (st2 : TranslatorState) (n : Nat)
    (h : translate_text st singleApi u = (Except.ok (v, st2), n)) :
    st2.sourceLang = st.sourceLang ∧ st2.targetLang = st.targetLang ∧
      ∀ k : CacheKey, cacheLookup st.cache k = none →
        k ≠ (u, st.sourceLang, st.targetLang) → cacheLookup st2.cache k = none := by
  unfold translate_text at h
  by_cases hb : strIsBlank u
  · rw [if_pos hb] at h
    simp only [Prod.mk.injEq, Except.ok.injEq] at h
    obtain ⟨⟨_, h2⟩, _⟩ := h
    subst h2
    exact ⟨rfl, rfl, fun k hk _ => hk⟩
  · rw [if_neg hb] at h
    rcases hl : cacheLookup st.cache (u, st.sourceLang, st.targetLang) with _ | w
    · rw [hl] at h
      rcases ha : singleApi u with e | r
      · rw [ha] at h; simp at h
      · rw [ha] at h
        simp only [Prod.mk.injEq, Except.ok.injEq] at h
        obtain ⟨⟨_, h2⟩, _⟩ := h
        subst h2
        refine ⟨rfl, rfl, fun k hk hne => ?_⟩
        unfold cacheLookup
        rw [if_neg (fun hh => hne hh.symm)]
        exact hk
    · rw [hl] at h
      simp only [Prod.mk.injEq, Except.ok.injEq] at h
      obtain ⟨⟨_, h2⟩, _⟩ := h
      subst h2
      exact ⟨rfl, rfl, fun k hk _ => hk⟩

theorem prepFallback_spec (singleApi : String → Except Unit String) :
    ∀ (todo : List String) (st : TranslatorState),
      (prepFallback st singleApi todo).1.length = todo.length ∧
      ∀ o ∈ (prepFallback st singleApi todo).1, o.isSome := by
  intro todo
  induction todo with
  | nil =>
    intro st
    exact ⟨rfl, by intro o ho; simp [prepFallback] at ho⟩
  | cons u rest ih =>
    intro st
    unfold prepFallback
    rcases htt : translate_text st singleApi u with ⟨res, m⟩
    cases res with
    | ok p =>
      obtain ⟨v, st2⟩ := p
      dsimp only
      refine ⟨by simp [(ih st2).1], ?_⟩
      intro o ho
      rcases List.mem_cons.mp ho with ho | ho
      · subst ho; rfl
      · exact (ih st2).2 o ho
    | error e =>
      dsimp only
      refine ⟨by simp [(ih st).1], ?_⟩
      intro o ho
      rcases List.mem_cons.mp ho with ho | ho
      · subst ho; rfl
      · exact (ih st).2 o ho

theorem prepFallback_fail (singleApi : String → Except Unit String) (t : String)
    (hfail : singleApi t = Except.error ()) (hbt : strIsBlank t = false) :
    ∀ (todo : List String) (st : TranslatorState),
      cacheLookup st.cache (t, st.sourceLang, st.targetLang) = none →
      ∀ r : Nat, todo[r]? = some t →
        (prepFallback st singleApi todo).1[r]? = some (some t) := by
  intro todo
  induction todo with
  | nil => intro st _ r hr; simp at hr
  | cons u rest ih =>
    intro st hnone r hr
    unfold prepFallback
    rcases htt : translate_text st singleApi u with ⟨res, m⟩
    cases res with
    | ok p =>
      obtain ⟨v, st2⟩ := p
      dsimp only
      have hune : u ≠ t := by
        intro hut
        subst hut
        unfold translate_text at htt
        rw [if_neg (by simp [hbt]), hnone, hfail] at htt
        simp at htt
      obtain ⟨hsl, htl, hpres⟩ := translate_text_ok_state st singleApi u v st2 m htt
      have hnone2 : cacheLookup st2.cache (t, st2.sourceLang, st2.targetLang) = none := by
        rw [hsl, htl]
        exact hpres (t, st.sourceLang, st.targetLang) hnone
          (by simp [Prod.ext_iff]; intro hut; exact absurd hut.symm hune)
      cases r with
      | zero =>
        exfalso
        simp at hr
        exact hune hr
      | succ r =>
        simp only [List.getElem?_cons_succ] at hr ⊢
        exact ih st2 hnone2 r hr
    | error e =>
      dsimp only
      cases r with
      | zero =>
        simp at hr
        subst hr
        simp
      | succ r =>
        simp only [List.getElem?_cons_succ] at hr ⊢
        exact ih st hnone r hr

theorem pCacheLookup_mem :
    ∀ (c : List (String × Option String)) (k : String) (v : Option String),
      pCacheLookup c k = some v → (k, v) ∈ c := by
  intro c
  induction c with
  | nil => intro k v h; simp [pCacheLookup] at h
  | cons e rest ih =>
    intro k v h
    obtain ⟨e1, e2⟩ := e
    unfold pCacheLookup at h
    split at h
    · rename_i heq
      have h1 : e1 = k := heq
      have h2 : e2 = v := by simpa using h
      subst h1
      subst h2
      exact List.mem_cons_self _ _
    · exact List.mem_cons_of_mem _ (ih k v h)

theorem prepTranslated_length (st : TranslatorState) (api : BatchApiResult)
    (clean : String → String) (singleApi : String → Except Unit String)
    (todo : List String) :
    (prepTranslated st api clean singleApi todo).length = todo.length := by
  unfold prepTranslated
  by_cases he : todo.isEmpty
  · rw [if_pos he]
    simp [List.isEmpty_iff.mp he]
  · rw [if_neg he]
    rcases htb : translate_batch st api clean todo with ⟨res, m⟩
    cases res with
    | ok p =>
      obtain ⟨tr, st2⟩ := p
      exact (translate_batch_ok st api clean todo tr st2 m htb).1
    | error e => exact (prepFallback_spec singleApi todo st).1

theorem prepTranslated_some (st : TranslatorState) (api : BatchApiResult)
    (clean : String → String) (singleApi : String → Except Unit String)
    (todo : List String) :
    ∀ o ∈ prepTranslated st api clean singleApi todo, o.isSome = true := by
  intro o ho
  unfold prepTranslated at ho
  by_cases he : todo.isEmpty
  · rw [if_pos he] at ho
    simp at ho
  · rw [if_neg he] at ho
    rcases htb : translate_batch st api clean todo with ⟨res, m⟩
    rw [htb] at ho
    cases res with
    | ok p =>
      obtain ⟨tr, st2⟩ := p
      obtain ⟨hlen, hsome, _⟩ := translate_batch_ok st api clean todo tr st2 m htb
      obtain ⟨nn, hn⟩ := List.getElem?_of_mem ho
      rcases List.getElem?_eq_some_iff.mp hn with ⟨hnlt, _⟩
      obtain ⟨s, hs⟩ := hsome nn (by rw [← hlen]; exact hnlt)
      rw [hn] at hs
      simp only [Option.some.injEq] at hs
      rw [hs]
      rfl
    | error e => exact (prepFallback_spec singleApi todo st).2 o ho

theorem prepTranslated_fail_at (st : TranslatorState) (clean : String → String)
    (singleApi : String → Except Unit String) (todo : List String) (t : String)
    (hbt : strIsBlank t = false)
    (hnone : cacheLookup st.cache (t, st.sourceLang, st.targetLang) = none)
    (hfail : singleApi t = Except.error ()) :
    ∀ r : Nat, todo[r]? = some t →
      (prepTranslated st BatchApiResult.raised clean singleApi todo)[r]? =
        some (some t) := by
  intro r hr
  unfold prepTranslated
  have hne : ¬ todo.isEmpty := by
    intro hemp
    rw [List.isEmpty_iff.mp hemp] at hr
    simp at hr
  rw [if_neg hne]
  rcases htb : translate_batch st BatchApiResult.raised clean todo with ⟨res, m⟩
  cases res with
  | ok p =>
    obtain ⟨tr, st2⟩ := p
    exfalso
    unfold translate_batch at htb
    rw [if_neg hne] at htb
    dsimp only at htb
    by_cases ht2 : (tbScan st todo 0).2.1.isEmpty
    · rcases List.getElem?_eq_some_iff.mp hr with ⟨hrlt, hrget⟩
      have hget : todo.get ⟨r, hrlt⟩ = t := hrget
      obtain ⟨r2, _, hr2⟩ := tbScan_miss_get st todo 0 r hrlt
        (by rw [hget]; exact hbt) (by rw [hget]; exact hnone)
      have hmem := List.getElem?_mem hr2
      rw [List.isEmpty_iff.mp ht2] at hmem
      simp at hmem
    · rw [if_neg ht2] at htb
      simp [translateBatchTexts] at htb
  | error e =>
    dsimp only
    exact prepFallback_fail singleApi t hfail hbt todo st hnone r hr

theorem translatePreparedBatchCore_spec
    (pcache : List (String × Option String)) (st : TranslatorState)
    (origTexts : List String) (api : BatchApiResult) (clean : String → String)
    (singleApi : String → Except Unit String)
    (hpc : ∀ e ∈ pcache, e.2.isSome = true) :
    (translatePreparedBatchCore pcache st origTexts api clean singleApi).length =
        origTexts.length ∧
      (∀ o ∈ translatePreparedBatchCore pcache st origTexts api clean singleApi,
        o.isSome = true) ∧
      (api = BatchApiResult.raised →
        ∀ j (hj : j < origTexts.length),
          pCacheLookup pcache (origTexts.get ⟨j, hj⟩) = none →
          strIsBlank (origTexts.get ⟨j, hj⟩) = false →
          cacheLookup st.cache (origTexts.get ⟨j, hj⟩, st.sourceLang, st.targetLang) = none →
          singleApi (origTexts.get ⟨j, hj⟩) = Except.error () →
          (translatePreparedBatchCore pcache st origTexts api clean singleApi)[j]? =
            some (some (origTexts.get ⟨j, hj⟩))) := by
  have hct := ppScan_length_eq pcache origTexts 0
  have htl := prepTranslated_length st api clean singleApi (ppScan pcache origTexts 0).2.1
  have hfsts : ((ppScan pcache origTexts 0).2.2.zip
      (prepTranslated st api clean singleApi (ppScan pcache origTexts 0).2.1)).map Prod.fst =
      (ppScan pcache origTexts 0).2.2 :=
    List.map_fst_zip _ _ (by omega)
  have hcore : translatePreparedBatchCore pcache st origTexts api clean singleApi =
      ((ppScan pcache origTexts 0).2.2.zip
          (prepTranslated st api clean singleApi (ppScan pcache origTexts 0).2.1)).foldl
        (fun a p => a.set p.1 p.2)
        ((ppScan pcache origTexts 0).1.foldl (fun a p => a.set p.1 p.2)
          (List.replicate origTexts.length none)) := rfl
  have hlen1 : ((ppScan pcache origTexts 0).1.foldl (fun a p => a.set p.1 p.2)
      (List.replicate origTexts.length (none : Option String))).length = origTexts.length := by
    rw [setFoldId_length]
    simp
  have hlenc : (translatePreparedBatchCore pcache st origTexts api clean singleApi).length =
      origTexts.length := by
    rw [hcore, setFoldId_length, hlen1]
  have hpoint : ∀ j (hj : j < origTexts.length), ∃ s : String,
      (translatePreparedBatchCore pcache st origTexts api clean singleApi)[j]? =
        some (some s) := by
    intro j hj
    rcases hl : pCacheLookup pcache (origTexts.get ⟨j, hj⟩) with _ | v
    · obtain ⟨r, hr1, hr2⟩ := ppScan_miss_get pcache origTexts 0 j hj hl
      rw [Nat.zero_add] at hr1
      rcases List.getElem?_eq_some_iff.mp hr1 with ⟨hrlt, _⟩
      have hrlt2 : r < (prepTranslated st api clean singleApi
          (ppScan pcache origTexts 0).2.1).length := by omega
      have hwsome : ((prepTranslated st api clean singleApi
          (ppScan pcache origTexts 0).2.1).get ⟨r, hrlt2⟩).isSome = true :=
        prepTranslated_some st api clean singleApi _ _ (List.get_mem _ _ _)
      rcases hws : (prepTranslated st api clean singleApi
          (ppScan pcache origTexts 0).2.1).get ⟨r, hrlt2⟩ with _ | s
      · rw [hws] at hwsome; simp at hwsome
      · refine ⟨s, ?_⟩
        rw [hcore]
        have hzip : ((ppScan pcache origTexts 0).2.2.zip
            (prepTranslated st api clean singleApi (ppScan pcache origTexts 0).2.1))[r]? =
            some (j, some s) := by
          rw [List.getElem?_zip_eq_some]
          refine ⟨hr1, ?_⟩
          rw [List.getElem?_eq_getElem hrlt2]
          rw [← hws]
          simp [List.get_eq_getElem]
        have hmem := List.getElem?_mem hzip
        rw [setFoldId_hit _ j (some s) _
          (by rw [hfsts]; exact ppScan_idc_nodup pcache origTexts 0)
          hmem (by rw [hlen1]; exact hj)]
    · obtain hmem := ppScan_cached_get pcache origTexts 0 j hj v hl
      rw [Nat.zero_add] at hmem
      have hnotidc : j ∉ (ppScan pcache origTexts 0).2.2 := by
        intro hk
        obtain ⟨j2, hj2, hjeq, hmiss⟩ := ppScan_idc_prop pcache origTexts 0 j hk
        have hg : origTexts.get ⟨j2, hj2⟩ = origTexts.get ⟨j, hj⟩ := by
          congr 1
          exact Fin.ext (show j2 = j by omega)
        rw [hg, hl] at hmiss
        simp at hmiss
      have hvmem := pCacheLookup_mem pcache _ v hl
      have hvsome : v.isSome = true := hpc _ hvmem
      rcases hvs : v with _ | s
      · rw [hvs] at hvsome; simp at hvsome
      · refine ⟨s, ?_⟩
        rw [hvs] at hmem
        rw [hcore, setFoldId_preserve _ j _ (by rw [hfsts]; exact hnotidc),
          setFoldId_hit _ j (some s) _ (ppScan_cached_fst_nodup pcache origTexts 0) hmem
            (by simpa using hj)]
  refine ⟨hlenc, ?_, ?_⟩
  · intro o ho
    obtain ⟨nn, hn⟩ := List.getElem?_of_mem ho
    rcases List.getElem?_eq_some_iff.mp hn with ⟨hnlt, _⟩
    obtain ⟨s, hs⟩ := hpoint nn (by rw [← hlenc]; exact hnlt)
    rw [hn] at hs
    simp only [Option.some.injEq] at hs
    rw [hs]
    rfl
  · intro hraised j hj hl hb hnone hfail
    subst hraised
    obtain ⟨r, hr1, hr2⟩ := ppScan_miss_get pcache origTexts 0 j hj hl
    rw [Nat.zero_add] at hr1
    have hval := prepTranslated_fail_at st clean singleApi
      (ppScan pcache origTexts 0).2.1 (origTexts.get ⟨j, hj⟩) hb hnone hfail r hr2
    have hzip : ((ppScan pcache origTexts 0).2.2.zip
        (prepTranslated st BatchApiResult.raised clean singleApi
          (ppScan pcache origTexts 0).2.1))[r]? =
        some (j, some (origTexts.get ⟨j, hj⟩)) := by
      rw [List.getElem?_zip_eq_some]
      exact ⟨hr1, hval⟩
    have hmem := List.getElem?_mem hzip
    rw [hcore]
    exact setFoldId_hit _ j (some (origTexts.get ⟨j, hj⟩)) _
      (by rw [hfsts]; exact ppScan_idc_nodup pcache origTexts 0) hmem
      (by rw [hlen1]; exact hj)

/-! ## Lemmas about checkpoint progress and validation -/

theorem group_flatten {α β : Type} (segs : List (α × β × Option PyText)) (bs : Nat) :
    (groupIntoContentAwareBatches segs bs).flatten =
      segs.filter (fun seg => seg.2.2.isSome) := by
  unfold groupIntoContentAwareBatches
  split
  · rename_i h
    rw [List.isEmpty_iff.mp h]
    rfl
  · simpa using groupLoop_flatten bs segs [] 0

theorem terminologyContribution_nonneg (p : Phases) : 0 ≤ terminologyContribution p := by
  unfold terminologyContribution
  split <;> norm_num

theorem preprocessingContribution_nonneg (p : Phases) : 0 ≤ preprocessingContribution p := by
  unfold preprocessingContribution
  split
  · norm_num
  · dsimp only
    split
    · positivity
    · norm_num

theorem translationContribution_nonneg (p : Phases) : 0 ≤ translationContribution p := by
  unfold translationContribution
  split
  · norm_num
  · dsimp only
    split
    · positivity
    · norm_num

theorem postprocessingContribution_nonneg (p : Phases) : 0 ≤ postprocessingContribution p := by
  unfold postprocessingContribution
  split <;> norm_num

theorem calculateTotalProgress_range (p : Phases) :
    0 ≤ calculateTotalProgress p ∧ calculateTotalProgress p ≤ 100 := by
  constructor
  · apply le_min (by norm_num)
    apply mul_nonneg _ (by norm_num)
    have h1 := terminologyContribution_nonneg p
    have h2 := preprocessingContribution_nonneg p
    have h3 := translationContribution_nonneg p
    have h4 := postprocessingContribution_nonneg p
    linarith
  · exact min_le_left _ _

theorem calculateTotalProgress_mono (p q : Phases)
    (h1 : terminologyContribution p ≤ terminologyContribution q)
    (h2 : preprocessingContribution p ≤ preprocessingContribution q)
    (h3 : translationContribution p ≤ translationContribution q)
    (h4 : postprocessingContribution p ≤ postprocessingContribution q) :
    calculateTotalProgress p ≤ calculateTotalProgress q := by
  unfold calculateTotalProgress
  apply min_le_min le_rfl
  apply mul_le_mul_of_nonneg_right (by linarith) (by norm_num)

theorem isLocal_batch_eq (env : StepEnv) (flags : List (String × Bool)) :
    isLocalProcessingStepCompleted env flags "batch_division_completed" =
      (env.workdirExists && env.workdirIsDir && env.batchesDirExists &&
        env.batchesDirIsDir && !env.batchesFiles.isEmpty &&
        lookupStepFlag flags "batch_division_completed") := by
  obtain ⟨we, wd, be, bd, bf, ce, cd, cf⟩ := env
  unfold isLocalProcessingStepCompleted
  cases we <;> cases wd <;> cases be <;> cases bd <;>
    by_cases hbf : bf.isEmpty <;> simp [hbf]

theorem isLocal_chapters_eq (env : StepEnv) (flags : List (String × Bool)) :
    isLocalProcessingStepCompleted env flags "chapter_organization_completed" =
      (env.workdirExists && env.workdirIsDir && env.chaptersDirExists &&
        env.chaptersDirIsDir && lookupStepFlag flags "chapter_organization_completed") := by
  obtain ⟨we, wd, be, bd, bf, ce, cd, cf⟩ := env
  unfold isLocalProcessingStepCompleted
  have hne : ("chapter_organization_completed" : String) ≠ "batch_division_completed" := by
    decide
  cases we <;> cases wd <;> cases ce <;> cases cd <;> simp [hne]

/-! ## Claim theorems -/

/-- C1 counterexample: for the single extracted segment with text
`"hello\n\nworld"`, the Batch Divider pipeline (optimize_segments followed
by group_into_content_aware_batches) does not reproduce the extracted
segment list: the segment is split into two segments and the blank-line
separator is deleted, so the claimed round-trip equality fails. -/
theorem c1_counterexample :
    ¬ ((groupIntoContentAwareBatches
          ((optimizeSegments [((0 : Nat), (0 : Nat), "hello\n\nworld".toList)] 10 5000).map
            withSomeText) 10).flatten =
        [((0 : Nat), (0 : Nat), "hello\n\nworld".toList)].map withSomeText) := by
  decide

/-- C1 (amended): concatenating all batches produced by
`group_into_content_aware_batches`, in batch order then intra-batch order,
reproduces the grouping pass's own input exactly — here, the output of
`optimize_segments` (whose texts are never `None`).  The grouping pass
never drops, duplicates, or alters a segment; it is `optimize_segments`
that may split segment texts, so the composed pipeline reproduces the
optimized, not the raw extracted, segment list. -/
theorem c1_batch_flatten_amended {α β : Type} (segs : List (α × β × PyText))
    (bs L : Nat) :
    (groupIntoContentAwareBatches ((optimizeSegments segs bs L).map withSomeText)
        bs).flatten =
      (optimizeSegments segs bs L).map withSomeText := by
  rw [group_flatten]
  apply List.filter_eq_self.mpr
  intro seg hseg
  rcases List.mem_map.mp hseg with ⟨x, _, hx⟩
  subst hx
  rfl

/-- C2 counterexample: with `max_segment_length = 6`, the segment
`"ab. cd."` (length 7) is emitted whole by `optimize_segments` even though
it contains a sentence boundary and whitespace, because the merge step
re-joins the two sentences and the inserted space pushes the chunk to
length 7 > 6.  This refutes the claim that output segments exceed the
limit only when the text has no splittable boundary. -/
theorem c2_counterexample :
    ¬ (∀ seg ∈ optimizeSegments [((0 : Nat), (0 : Nat), "ab. cd.".toList)] 10 6,
        seg.2.2.length ≤ 6 ∨
          (containsDoubleNewline seg.2.2 = false ∧ hasSentenceBoundary seg.2.2 = false ∧
            seg.2.2.all (fun c => ! pyIsSpace c) = true)) := by
  decide

/-- C2 (amended): for every segment list divided with
`max_segment_length = L`, every segment text in the divider's output either
has length at most `L + 1` (the one-character excess stems from the space
separator inserted when merging sentences), or contains no sentence
boundary of the splitting regex (a `[.!?]` character followed by
whitespace) and is emitted whole, never truncated.  Bare whitespace is
never used as a split boundary. -/
theorem c2_max_length_amended {α β : Type} (segs : List (α × β × PyText))
    (bs L : Nat) :
    ∀ seg ∈ optimizeSegments segs bs L,
      seg.2.2.length ≤ L + 1 ∨ hasSentenceBoundary seg.2.2 = false :=
  optimizeSegments_bound segs bs L

/-- Witness for C2 (amended) at a concrete input. -/
theorem c2_max_length_amended_witness :
    (((0 : Nat), (0 : Nat), "hi".toList) ∈
        optimizeSegments [((0 : Nat), (0 : Nat), "hi".toList)] 10 50) ∧
      (("hi".toList : PyText).length ≤ 50 + 1 ∨
        hasSentenceBoundary "hi".toList = false) :=
  ⟨by decide,
    c2_max_length_amended [((0 : Nat), (0 : Nat), "hi".toList)] 10 50
      ((0 : Nat), (0 : Nat), "hi".toList) (by decide)⟩

/-- C3: when translation runs without the force-restart flag, the dispatch
loop of `translate_prepared_content` skips exactly the batches whose loaded
status records `translation_completed = true` (counting them as already
processed) and submits exactly the remaining batches. -/
theorem c3_resume_dispatch {κ : Type} (batches : List (κ × Option BatchStatusRec)) :
    planDispatch false batches =
      (batches.filter (fun b => batchMarkedCompleted b.2),
        batches.filter (fun b => ! batchMarkedCompleted b.2)) := by
  induction batches with
  | nil => rfl
  | cons b rest ih =>
    simp only [planDispatch, ih]
    by_cases h : batchMarkedCompleted b.2
    · simp [h]
    · simp [h]

/-- C10: for every input segment list and every `batch_size ≥ 1`, every
batch returned by `group_into_content_aware_batches` is non-empty and
contains at most `batch_size` segments — the target size is a hard upper
bound. -/
theorem c10_hard_batch_bound {α β : Type} (segs : List (α × β × Option PyText))
    (bs : Nat) (hbs : 1 ≤ bs) :
    ∀ b ∈ groupIntoContentAwareBatches segs bs, b ≠ [] ∧ b.length ≤ bs := by
  intro b hb
  unfold groupIntoContentAwareBatches at hb
  split at hb
  · simp at hb
  · exact groupLoop_bounds bs hbs segs [] 0 rfl (by omega) b hb

/-- Witness for C10 at a concrete input. -/
theorem c10_hard_batch_bound_witness :
    1 ≤ 2 ∧ ([((0 : Nat), (0 : Nat), some "a.".toList)] ≠ [] ∧
      [((0 : Nat), (0 : Nat), some "a.".toList)].length ≤ 2) :=
  ⟨by decide,
    c10_hard_batch_bound [((0 : Nat), (0 : Nat), some "a.".toList)] 2 (by decide)
      [((0 : Nat), (0 : Nat), some "a.".toList)] (by decide)⟩

/-- C4: after every `update_progress` / `update_*_phase` call, in any
sequence of such calls from any starting state and with arbitrary
non-negative counter values, the stored `total_progress` lies in
`[0, 100]`: the weighted sum of phase contributions is non-negative and the
result is clamped from above by `min 100`. -/
theorem c4_progress_range (s : CheckpointProgressState) (us : List PhaseUpdate)
    (u : PhaseUpdate) :
    0 ≤ (applyPhaseUpdate (us.foldl applyPhaseUpdate s) u).totalProgress ∧
      (applyPhaseUpdate (us.foldl applyPhaseUpdate s) u).totalProgress ≤ 100 :=
  calculateTotalProgress_range _

/-- C5 counterexample: within one update sequence, an
`update_translation_phase` call that writes `translated_chars = 0` (as the
resume path of `translate_prepared_content` does) makes the stored
`total_progress` regress: after reaching 85 via
`translated_chars = total_chars = 100`, the resetting update drops it
to 0. -/
theorem c5_counterexample :
    (applyPhaseUpdate
        (applyPhaseUpdate
          ⟨⟨⟨false, 0⟩, ⟨false, none, none⟩, ⟨false, some 0, some 0⟩, ⟨false⟩⟩, 0⟩
          (PhaseUpdate.translation false (some 100) (some 100)))
        (PhaseUpdate.translation false (some 100) (some 0))).totalProgress <
      (applyPhaseUpdate
        ⟨⟨⟨false, 0⟩, ⟨false, none, none⟩, ⟨false, some 0, some 0⟩, ⟨false⟩⟩, 0⟩
        (PhaseUpdate.translation false (some 100) (some 100))).totalProgress := by
  norm_num [applyPhaseUpdate, calculateTotalProgress, terminologyContribution,
    preprocessingContribution, translationContribution, postprocessingContribution]

/-- C5 (amended): `total_progress` is non-decreasing across a checkpoint
update provided the update does not decrease any phase's contribution
(its completed flag or its progress ratio); phase completions and
accumulating counters satisfy this, but the update issued by the resume
path with `translated_chars = 0` does not, and does regress the value. -/
theorem c5_progress_monotone_amended (s : CheckpointProgressState) (u : PhaseUpdate)
    (hsync : s.totalProgress = calculateTotalProgress s.phases)
    (h1 : terminologyContribution s.phases ≤
      terminologyContribution (applyPhaseUpdate s u).phases)
    (h2 : preprocessingContribution s.phases ≤
      preprocessingContribution (applyPhaseUpdate s u).phases)
    (h3 : translationContribution s.phases ≤
      translationContribution (applyPhaseUpdate s u).phases)
    (h4 : postprocessingContribution s.phases ≤
      postprocessingContribution (applyPhaseUpdate s u).phases) :
    s.totalProgress ≤ (applyPhaseUpdate s u).totalProgress := by
  rw [hsync]
  exact calculateTotalProgress_mono _ _ h1 h2 h3 h4

/-- Witness for C5 (amended) at a concrete input. -/
theorem c5_progress_monotone_amended_witness :
    (⟨⟨⟨false, 0⟩, ⟨false, none, none⟩, ⟨false, some 0, some 0⟩, ⟨false⟩⟩, 0⟩ :
        CheckpointProgressState).totalProgress ≤
      (applyPhaseUpdate
        ⟨⟨⟨false, 0⟩, ⟨false, none, none⟩, ⟨false, some 0, some 0⟩, ⟨false⟩⟩, 0⟩
        (PhaseUpdate.postprocessing true)).totalProgress :=
  c5_progress_monotone_amended
    ⟨⟨⟨false, 0⟩, ⟨false, none, none⟩, ⟨false, some 0, some 0⟩, ⟨false⟩⟩, 0⟩
    (PhaseUpdate.postprocessing true)
    (by norm_num [calculateTotalProgress, terminologyContribution,
      preprocessingContribution, translationContribution, postprocessingContribution])
    (by norm_num [applyPhaseUpdate, terminologyContribution])
    (by norm_num [applyPhaseUpdate, preprocessingContribution])
    (by norm_num [applyPhaseUpdate, translationContribution])
    (by norm_num [applyPhaseUpdate, postprocessingContribution])

/-- C6: for every reachable translator state whose cache already holds the
key `(text, source_lang, target_lang)`, a second `translate_text` call
returns exactly the cached value with zero external API calls and an
unchanged state; and in `translate_batch`, that text is never among the
texts submitted to the external API, while its positions in the result
receive exactly the cached value. -/
theorem c6_cache_idempotence (st : TranslatorState) (text v : String)
    (hR : ReachableTState st)
    (hv : cacheLookup st.cache (text, st.sourceLang, st.targetLang) = some v) :
    (∀ singleApi : String → Except Unit String,
        translate_text st singleApi text = (Except.ok (v, st), 0)) ∧
      (∀ texts : List String, text ∉ (tbScan st texts 0).2.1) ∧
      (∀ (api : BatchApiResult) (clean : String → String) (texts : List String)
          (tr : List (Option String)) (st2 : TranslatorState) (n : Nat),
        translate_batch st api clean texts = (Except.ok (tr, st2), n) →
        ∀ j (hj : j < texts.length), texts.get ⟨j, hj⟩ = text →
          tr[j]? = some (some v)) := by
  have hb : strIsBlank text = false := by
    have hmem := cacheLookup_mem st.cache _ v hv
    exact reachable_cache_keys st hR _ hmem
  refine ⟨?_, ?_, ?_⟩
  · intro singleApi
    exact translate_text_cache_hit st singleApi text v hb hv
  · intro texts hmem
    have hnone := (tbScan_todo_prop st texts 0 text hmem).2
    rw [hv] at hnone
    exact Option.noConfusion hnone
  · intro api clean texts tr st2 n h j hj hjt
    exact (translate_batch_ok st api clean texts tr st2 n h).2.2 j hj v
      (by rw [hjt]; exact hb) (by rw [hjt]; exact hv)

/-- Witness for C6 at a concrete reachable state: translating `"hello"`
once populates the cache, and the second call returns the cached value with
no API call. -/
theorem c6_cache_idempotence_witness :
    translate_text
        (afterTranslateText ⟨"en", "zh-CN", []⟩ (fun _ => Except.ok "NIHAO") "hello")
        (fun _ => Except.ok "NIHAO") "hello" =
      (Except.ok ("NIHAO",
        afterTranslateText ⟨"en", "zh-CN", []⟩ (fun _ => Except.ok "NIHAO") "hello"), 0) :=
  (c6_cache_idempotence
    (afterTranslateText ⟨"en", "zh-CN", []⟩ (fun _ => Except.ok "NIHAO") "hello")
    "hello" "NIHAO"
    (ReachableTState.viaText ⟨"en", "zh-CN", []⟩ (fun _ => Except.ok "NIHAO") "hello"
      (ReachableTState.init "en" "zh-CN"))
    (by decide)).1 (fun _ => Except.ok "NIHAO")

/-- C7: for every batch whose processor cache holds no `None` values, the
`all_translated_texts` list built by `_translate_prepared_batch` has the
same length as the original texts, every position holds a value (never
`None`), and when the batch-level call raises, a position whose text also
fails individually (no cache entry anywhere, individual call raises)
receives its own original text. -/
theorem c7_graceful_degradation
    (pcache : List (String × Option String)) (st : TranslatorState)
    (origTexts : List String) (api : BatchApiResult) (clean : String → String)
    (singleApi : String → Except Unit String)
    (hpc : ∀ e ∈ pcache, e.2.isSome = true) :
    (translatePreparedBatchCore pcache st origTexts api clean singleApi).length =
        origTexts.length ∧
      (∀ o ∈ translatePreparedBatchCore pcache st origTexts api clean singleApi,
        o.isSome = true) ∧
      (api = BatchApiResult.raised →
        ∀ j (hj : j < origTexts.length),
          pCacheLookup pcache (origTexts.get ⟨j, hj⟩) = none →
          strIsBlank (origTexts.get ⟨j, hj⟩) = false →
          cacheLookup st.cache (origTexts.get ⟨j, hj⟩, st.sourceLang, st.targetLang) =
            none →
          singleApi (origTexts.get ⟨j, hj⟩) = Except.error () →
          (translatePreparedBatchCore pcache st origTexts api clean singleApi)[j]? =
            some (some (origTexts.get ⟨j, hj⟩))) :=
  translatePreparedBatchCore_spec pcache st origTexts api clean singleApi hpc

/-- Witness for C7: a batch call that raises with an individual call that
also raises maps the text to its own original. -/
theorem c7_graceful_degradation_witness :
    (∀ e ∈ ([] : List (String × Option String)), e.2.isSome = true) ∧
      (translatePreparedBatchCore [] ⟨"en", "zh-CN", []⟩ ["ab"]
          BatchApiResult.raised (fun s => s) (fun _ => Except.error ()))[0]? =
        some (some "ab") :=
  ⟨by simp,
    (c7_graceful_degradation [] ⟨"en", "zh-CN", []⟩ ["ab"] BatchApiResult.raised
      (fun s => s) (fun _ => Except.error ()) (by simp)).2.2 rfl 0 (by decide)
      rfl rfl rfl rfl⟩

/-- C8 counterexample: `is_local_processing_step_completed` for
`chapter_organization_completed` only checks that the chapters directory
exists — it does not require it to contain files.  With an empty
`chapters_original` directory and a stored `true` flag, the method returns
`true`, refuting the claim's emptiness cross-check for this step. -/
theorem c8_counterexample :
    ¬ ((StepEnv.chaptersFiles
          { workdirExists := true, workdirIsDir := true, batchesDirExists := true,
            batchesDirIsDir := true, batchesFiles := ["batch_000.json"],
            chaptersDirExists := true, chaptersDirIsDir := true,
            chaptersFiles := [] }).isEmpty = true →
        isLocalProcessingStepCompleted
          { workdirExists := true, workdirIsDir := true, batchesDirExists := true,
            batchesDirIsDir := true, batchesFiles := ["batch_000.json"],
            chaptersDirExists := true, chaptersDirIsDir := true, chaptersFiles := [] }
          [("chapter_organization_completed", true)]
          "chapter_organization_completed" = false) := by
  decide

/-- C8 (amended): `is_local_processing_step_completed` returns `False` for
`batch_division_completed` whenever the working directory is missing, the
batches directory is missing, or the batches directory has no files, and
otherwise returns the stored flag; for `chapter_organization_completed` it
returns `False` whenever the working directory or the chapters directory is
missing — existence only, with no emptiness check — and otherwise returns
the stored flag. -/
theorem c8_step_artifact_check_amended (env : StepEnv)
    (flags : List (String × Bool)) :
    isLocalProcessingStepCompleted env flags "batch_division_completed" =
        (env.workdirExists && env.workdirIsDir && env.batchesDirExists &&
          env.batchesDirIsDir && !env.batchesFiles.isEmpty &&
          lookupStepFlag flags "batch_division_completed") ∧
      isLocalProcessingStepCompleted env flags "chapter_organization_completed" =
        (env.workdirExists && env.workdirIsDir && env.chaptersDirExists &&
          env.chaptersDirIsDir &&
          lookupStepFlag flags "chapter_organization_completed") :=
  ⟨isLocal_batch_eq env flags, isLocal_chapters_eq env flags⟩

/-- C9: `save_checkpoint` never propagates an exception — it returns `True`
exactly when writing succeeded and `False` when it raised — and
`check_existing_checkpoint` never propagates an exception on a missing,
unparsable, or hash-mismatched checkpoint file: it reports the checkpoint
as invalid and, whenever it reports invalid, leaves the in-memory state
unchanged. -/
theorem c9_checkpoint_io_failure :
    (∀ env : SaveEnv, saveCheckpoint env = true ↔ env.writeOutcome = Except.ok ()) ∧
      ∀ (lenv : LoadEnv) (st : CheckpointFileData),
        (lenv.fileExists = false → checkExistingCheckpoint lenv st = ((false, false), st)) ∧
        (∀ e : Unit, lenv.fileExists = true → lenv.parseOutcome = Except.error e →
          checkExistingCheckpoint lenv st = ((true, false), st)) ∧
        (∀ d : CheckpointFileData, lenv.fileExists = true →
          lenv.parseOutcome = Except.ok d → lenv.currentHash ≠ d.sourceFileHash →
          checkExistingCheckpoint lenv st = ((true, false), st)) ∧
        ((checkExistingCheckpoint lenv st).1.2 = false →
          (checkExistingCheckpoint lenv st).2 = st) := by
  constructor
  · intro env
    unfold saveCheckpoint
    rcases h : env.writeOutcome with e | u
    · simp
    · simp
  · intro lenv st
    have key : (checkExistingCheckpoint lenv st).2 = st ∨
        (checkExistingCheckpoint lenv st).1.2 = true := by
      unfold checkExistingCheckpoint
      split
      · exact Or.inl rfl
      · split
        · exact Or.inl rfl
        · split
          · exact Or.inl rfl
          · split
            · exact Or.inl rfl
            · split
              · exact Or.inl rfl
              · split
                · split
                  · exact Or.inl rfl
                  · split
                    · exact Or.inl rfl
                    · exact Or.inr rfl
                · exact Or.inr rfl
    refine ⟨?_, ?_, ?_, ?_⟩
    · intro hfe
      unfold checkExistingCheckpoint
      rw [if_pos (by simp [hfe])]
    · intro e hfe hpe
      unfold checkExistingCheckpoint
      rw [if_neg (by simp [hfe]), hpe]
    · intro d hfe hpe hhash
      unfold checkExistingCheckpoint
      rw [if_neg (by simp [hfe]), hpe]
      dsimp only
      rw [if_pos hhash]
    · intro hv
      rcases key with k | k
      · exact k
      · rw [k] at hv
        exact absurd hv (by simp)

/-- Witness for C9 at a concrete environment: a parse failure yields
`(exists, valid) = (true, false)` and leaves the state unchanged. -/
theorem c9_checkpoint_io_failure_witness :
    checkExistingCheckpoint
        { fileExists := true, parseOutcome := Except.error (),
          currentHash := some "h", requiredDirsOk := true,
          batchFilesListing := Except.ok ["b"] }
        { sourceFileHash := some "h", phasesBatchDivision := Except.ok false } =
      ((true, false),
        { sourceFileHash := some "h", phasesBatchDivision := Except.ok false }) :=
  ((c9_checkpoint_io_failure.2
      { fileExists := true, parseOutcome := Except.error (),
        currentHash := some "h", requiredDirsOk := true,
        batchFilesListing := Except.ok ["b"] }
      { sourceFileHash := some "h", phasesBatchDivision := Except.ok false }).2.1
    () rfl rfl)
